import Mathlib

/-!
Verification of the index-scanning and response-batching engine of
`pkg/ingester/label_names_and_values.go`: the label names/values streamer
(`labelNamesAndValues`), the label-values cardinality computer
(`labelValuesCardinality`) and the shared postings counter
(`countLabelValueSeries`).

The Go code is embedded shallowly: the index reader, the postings resolver and
the response sink are parameters; errors are propagated through `Except`;
the nondeterministic arrival order of concurrent per-value counting results is
an explicit parameter (`arrival`); each send to the sink is recorded in a trace
together with the value of the size accumulator at (and right after) the send.
-/

namespace Mimir

/-- Errors are opaque values the algorithms propagate verbatim; modelled as strings. -/
abbrev Err := String

/-- Go `len(s)` on a string: its UTF-8 byte length. -/
def byteLen (s : String) : Nat := s.utf8ByteSize

/-- Prometheus `labels.MatchType`. -/
inductive MatchType
  | MatchEqual
  | MatchNotEqual
  | MatchRegexp
  | MatchNotRegexp
deriving DecidableEq, Repr

/-- Prometheus `labels.Matcher`: a predicate over a (label name, label value) pair.
The batching algorithms treat matchers as opaque data passed to the index. -/
structure Matcher where
  type : MatchType
  name : String
  value : String
deriving DecidableEq, Repr

/-- A postings iterator (`index.Postings`): `Next()` succeeds `advances` times and
then returns false; `Err()` called after exhaustion returns `terminalErr`. -/
structure Postings where
  advances : Nat
  terminalErr : Option Err
deriving DecidableEq, Repr

/-- Go constant `checkContextErrorSeriesCount = 1000`: series count interval in which
context cancellation must be checked. -/
def checkContextErrorSeriesCount : Nat := 1000

/-- The `for p.Next() { count++; if count%1000 == 0 { check ctx } }` loop of
`countLabelValueSeries`. `ctx k` is what `ctx.Err()` returns when observed with
the counter equal to `k`; `left` is the number of successful `Next()` calls still
to come; `count` is the current counter value. -/
def countLoop (ctx : Nat → Option Err) : Nat → Nat → Except Err Nat
  | 0, count => .ok count
  | left + 1, count =>
    let count := count + 1
    if count % checkContextErrorSeriesCount = 0 then
      match ctx count with
      | some e => .error e
      | none => countLoop ctx left count
    else
      countLoop ctx left count

/-- Go `countLabelValueSeries(ctx, lbName, lbValue, idxReader, postingsForMatchersFn, matchers)`:
appends one equality matcher for (lbName, lbValue) to a copy of `matchers`,
resolves postings for that set, counts iterator advances checking `ctx` every
`checkContextErrorSeriesCount` advances, and finally returns the iterator's
terminal error if non-nil, else the count. -/
def countLabelValueSeries (ctx : Nat → Option Err) (lbName lbValue : String)
    (postingsForMatchersFn : List Matcher → Except Err Postings)
    (matchers : List Matcher) : Except Err Nat :=
  let lblValMatchers := matchers ++ [⟨.MatchEqual, lbName, lbValue⟩]
  match postingsForMatchersFn lblValMatchers with
  | .error e => .error e
  | .ok p =>
    match countLoop ctx p.advances 0 with
    | .error e => .error e
    | .ok count =>
      match p.terminalErr with
      | some e => .error e
      | none => .ok count

/-! ## The label names and values streamer -/

/-- Message type `client.LabelValues`: one entry of a name/value batch. -/
structure LVItem where
  labelName : String
  values : List String
deriving DecidableEq, Repr

/-- Which send site of `labelNamesAndValues` produced a batch: the flush
triggered by a label name (line 48), the flush triggered by a label value
(line 66), or the final conditional send after the loop (line 93). -/
inductive NVKind
  | nameFlush
  | valueFlush
  | finalSend
deriving DecidableEq, Repr

/-- One send of `labelNamesAndValues`, as observed by the sink, instrumented with
the value of `responseSizeBytes` at the send (`accAtFlush`) and right after the
reset that follows it (`accAfter`), the label name being processed (`nameCtx`,
`""` for the final send), and for value-triggered flushes the full value list of
that name (`valuesCtx`) and the exclusive end index `i+1` of the flushed slice
(`sliceEnd`). -/
structure NVEvent where
  kind : NVKind
  batch : List LVItem
  accAtFlush : Nat
  accAfter : Nat
  nameCtx : String
  valuesCtx : List String
  sliceEnd : Nat
deriving DecidableEq, Repr

/-- The streamer's loop state: the pending `response.Items`, the accumulator
`responseSizeBytes`, the batches successfully delivered so far, and counters of
send attempts and context-cancellation checks performed. -/
structure NVState where
  items : List LVItem
  respSize : Nat
  trace : List NVEvent
  sendCount : Nat
  ctxChecks : Nat
deriving DecidableEq, Repr

/-- Result of a `labelNamesAndValues` call: delivered batches, the returned
error (`none` on success), and how many send attempts and context checks the
call performed. -/
structure NVResult where
  trace : List NVEvent
  err : Option Err
  sendAttempts : Nat
  ctxChecks : Nat
deriving DecidableEq, Repr

/-- Go `bits.Len(n)` via an explicit fuel argument (the fuel `n` dominates the
number of halvings). -/
def bitsLenAux : Nat → Nat → Nat
  | 0, _ => 0
  | fuel + 1, n => if n = 0 then 0 else bitsLenAux fuel (n / 2) + 1

/-- Go `bits.Len64(n)`: position of the highest set bit. -/
def bitsLen (n : Nat) : Nat := bitsLenAux n n

/-- Modelled from the spec: the wire messages' size accounting lives in the
generated `client` package, outside the shown sources. `sovIngester` is the
gogoproto varint width `(bits.Len64(x|1) + 6) / 7`. -/
def sovIngester (x : Nat) : Nat := (bitsLen (x ||| 1) + 6) / 7

/-- Modelled from the spec: serialized size of one `client.LabelValues` item
(gogoproto: a length-delimited field per non-empty label name and per value). -/
def lvItemSize (it : LVItem) : Nat :=
  (if 0 < byteLen it.labelName then
    1 + byteLen it.labelName + sovIngester (byteLen it.labelName)
  else 0)
  + (it.values.map (fun v => 1 + byteLen v + sovIngester (byteLen v))).sum

/-- Modelled from the spec: `response.Size()` of a
`client.LabelNamesAndValuesResponse` holding `items` (each item is a
length-delimited field). The final send fires exactly when this is positive. -/
def responseSize (items : List LVItem) : Nat :=
  (items.map (fun it => 1 + lvItemSize it + sovIngester (lvItemSize it))).sum

/-- The inner `for i, val := range values` loop of `labelNamesAndValues`
(lines 61-90). `rest` is `values[i:]`; `lastAdded1` is `lastAddedValueIndex + 1`
(the slice start), so `values[lastAddedValueIndex+1 : i+1]` is
`(values.drop lastAdded1).take (i + 1 - lastAdded1)`. A `.error` result is the
whole call halting with that `NVResult`. -/
def lnvValuesLoop (messageSizeThreshold : Nat) (sendErrAt : Nat → Option Err)
    (labelName : String) (values : List String) :
    List String → Nat → Nat → NVState → Except NVResult NVState
  | [], _, _, s => .ok s
  | val :: rest, i, lastAdded1, s =>
    let respSize := s.respSize + byteLen val
    if messageSizeThreshold ≤ respSize then
      let slice := (values.drop lastAdded1).take (i + 1 - lastAdded1)
      let batch := s.items ++ [⟨labelName, slice⟩]
      match sendErrAt s.sendCount with
      | some e => .error ⟨s.trace, some e, s.sendCount + 1, s.ctxChecks⟩
      | none =>
        let accAfter := if i + 1 = values.length then 0 else byteLen labelName
        let ev : NVEvent := ⟨.valueFlush, batch, respSize, accAfter, labelName, values, i + 1⟩
        lnvValuesLoop messageSizeThreshold sendErrAt labelName values rest (i + 1) (i + 1)
          ⟨[], accAfter, s.trace ++ [ev], s.sendCount + 1, s.ctxChecks⟩
    else if i + 1 = values.length then
      let slice := (values.drop lastAdded1).take (i + 1 - lastAdded1)
      .ok ⟨s.items ++ [⟨labelName, slice⟩], respSize, s.trace, s.sendCount, s.ctxChecks⟩
    else
      lnvValuesLoop messageSizeThreshold sendErrAt labelName values rest (i + 1) lastAdded1
        ⟨s.items, respSize, s.trace, s.sendCount, s.ctxChecks⟩

/-- One iteration of the outer `for _, labelName := range labelNames` loop of
`labelNamesAndValues` (lines 41-91): context check, accumulator update with the
name's byte length, possible name-triggered flush, fetch of the name's values,
then the inner value loop. -/
def lnvProcessName (messageSizeThreshold : Nat)
    (labelValuesRes : String → List Matcher → Except Err (List String))
    (matchers : List Matcher) (ctxErrAt sendErrAt : Nat → Option Err)
    (labelName : String) (s : NVState) : Except NVResult NVState :=
  match ctxErrAt s.ctxChecks with
  | some e => .error ⟨s.trace, some e, s.sendCount, s.ctxChecks + 1⟩
  | none =>
    let ctxChecks := s.ctxChecks + 1
    let respSize := s.respSize + byteLen labelName
    let afterFlush : Except NVResult NVState :=
      if messageSizeThreshold ≤ respSize then
        match sendErrAt s.sendCount with
        | some e => .error ⟨s.trace, some e, s.sendCount + 1, ctxChecks⟩
        | none =>
          .ok ⟨[], byteLen labelName,
            s.trace ++ [⟨.nameFlush, s.items, respSize, byteLen labelName, labelName, [], 0⟩],
            s.sendCount + 1, ctxChecks⟩
      else
        .ok ⟨s.items, respSize, s.trace, s.sendCount, ctxChecks⟩
    match afterFlush with
    | .error r => .error r
    | .ok s1 =>
      match labelValuesRes labelName matchers with
      | .error e => .error ⟨s1.trace, some e, s1.sendCount, s1.ctxChecks⟩
      | .ok values => lnvValuesLoop messageSizeThreshold sendErrAt labelName values values 0 0 s1

/-- The outer loop of `labelNamesAndValues` over the label names. -/
def lnvNamesLoop (messageSizeThreshold : Nat)
    (labelValuesRes : String → List Matcher → Except Err (List String))
    (matchers : List Matcher) (ctxErrAt sendErrAt : Nat → Option Err) :
    List String → NVState → Except NVResult NVState
  | [], s => .ok s
  | n :: ns, s =>
    match lnvProcessName messageSizeThreshold labelValuesRes matchers ctxErrAt sendErrAt n s with
    | .error r => .error r
    | .ok s1 => lnvNamesLoop messageSizeThreshold labelValuesRes matchers ctxErrAt sendErrAt ns s1

/-- Go `labelNamesAndValues(index, matchers, messageSizeThreshold, server)`.
`labelNamesRes` and `labelValuesRes` are the index reader's `LabelNames` and
`LabelValues`; `ctxErrAt k` is what `ctx.Err()` returns at its `k`-th check;
`sendErrAt k` is the error (if any) of the `k`-th send attempt. -/
def labelNamesAndValues (matchers : List Matcher)
    (labelNamesRes : List Matcher → Except Err (List String))
    (labelValuesRes : String → List Matcher → Except Err (List String))
    (messageSizeThreshold : Nat) (ctxErrAt sendErrAt : Nat → Option Err) : NVResult :=
  match labelNamesRes matchers with
  | .error e => ⟨[], some e, 0, 0⟩
  | .ok labelNames =>
    match lnvNamesLoop messageSizeThreshold labelValuesRes matchers ctxErrAt sendErrAt
        labelNames ⟨[], 0, [], 0, 0⟩ with
    | .error r => r
    | .ok s =>
      if 0 < responseSize s.items then
        match sendErrAt s.sendCount with
        | some e => ⟨s.trace, some e, s.sendCount + 1, s.ctxChecks⟩
        | none =>
          ⟨s.trace ++ [⟨.finalSend, s.items, s.respSize, s.respSize, "", [], 0⟩], none,
            s.sendCount + 1, s.ctxChecks⟩
      else
        ⟨s.trace, none, s.sendCount, s.ctxChecks⟩

/-! ## The label values cardinality computer -/

/-- Message type `client.LabelValueSeriesCount`: one per-name entry of a cardinality batch.
The Go `map[string]uint64` is modelled as an insertion-ordered association list
with overwrite-on-assignment semantics (`mapInsert`). -/
structure CardItem where
  labelName : String
  labelValueSeries : List (String × Nat)
deriving DecidableEq, Repr

/-- Which send site of `labelValuesCardinality` produced a batch: the threshold
flush (line 157) or the final conditional send (line 171). -/
inductive CardKind
  | flush
  | finalSend
deriving DecidableEq, Repr

/-- One send of `labelValuesCardinality`, instrumented with the value of the
size accumulator `respSize` at the send. -/
structure CardEvent where
  kind : CardKind
  batch : List CardItem
  respSizeAtFlush : Nat
deriving DecidableEq, Repr

/-- The cardinality loop state: pending `resp.Items`, the accumulator
`respSize`, whether `respItem` currently points at the last pending item
(`entryOpen`), delivered batches, and effect counters. -/
structure CardState where
  items : List CardItem
  respSize : Nat
  entryOpen : Bool
  trace : List CardEvent
  sendCount : Nat
  ctxChecks : Nat
deriving DecidableEq, Repr

/-- Result of a `labelValuesCardinality` call: delivered batches and the
returned error (`none` on success). -/
structure CardResult where
  trace : List CardEvent
  err : Option Err
deriving DecidableEq, Repr

/-- Go map assignment `m[k] = v`: overwrite the entry for `k` if present, else
append it. -/
def mapInsert (m : List (String × Nat)) (k : String) (v : Nat) : List (String × Nat) :=
  if m.any (fun p => p.1 == k) then
    m.map (fun p => if p.1 == k then (k, v) else p)
  else
    m ++ [(k, v)]

/-- Mutation through the `respItem` pointer: update the most recently appended
item of `resp.Items`. -/
def updateLast (f : CardItem → CardItem) : List CardItem → List CardItem
  | [] => []
  | [it] => [f it]
  | it :: rest => it :: updateLast f rest

/-- The result-consumption loop of `labelValuesCardinality` (lines 131-167) for
one label name. The channel's nondeterministic delivery order is the explicit
list `arrivals`; each delivered result is `countLabelValueSeries` of that value
(computed by the per-value goroutine). On an error result the whole call
returns that error. -/
def lvcValuesLoop (msgSizeThreshold : Nat) (matchers : List Matcher)
    (postingsForMatchersFn : List Matcher → Except Err Postings)
    (cctx : Nat → Option Err) (sendErrAt : Nat → Option Err) (lbName : String) :
    List String → CardState → Except CardResult CardState
  | [], s => .ok s
  | v :: arrivals, s =>
    match countLabelValueSeries cctx lbName v postingsForMatchersFn matchers with
    | .error e => .error ⟨s.trace, some e⟩
    | .ok count =>
      let items := if s.entryOpen then s.items else s.items ++ [⟨lbName, []⟩]
      let items := updateLast
        (fun it => { it with labelValueSeries := mapInsert it.labelValueSeries v count }) items
      let respSize := s.respSize + byteLen v
      if respSize < msgSizeThreshold then
        lvcValuesLoop msgSizeThreshold matchers postingsForMatchersFn cctx sendErrAt lbName
          arrivals ⟨items, respSize, true, s.trace, s.sendCount, s.ctxChecks⟩
      else
        match sendErrAt s.sendCount with
        | some e => .error ⟨s.trace, some e⟩
        | none =>
          lvcValuesLoop msgSizeThreshold matchers postingsForMatchersFn cctx sendErrAt lbName
            arrivals
            ⟨[], 0, false, s.trace ++ [⟨.flush, items, respSize⟩], s.sendCount + 1, s.ctxChecks⟩

/-- The outer `for _, lbName := range lbNames` loop of `labelValuesCardinality`
(lines 114-168): context check, fetch of the name's values, then consumption of
the per-value counting results in arrival order `arrival lbName values`. -/
def lvcNamesLoop (msgSizeThreshold : Nat) (matchers : List Matcher)
    (idxLabelValues : String → List Matcher → Except Err (List String))
    (postingsForMatchersFn : List Matcher → Except Err Postings)
    (arrival : String → List String → List String)
    (cctx ctxTop sendErrAt : Nat → Option Err) :
    List String → CardState → Except CardResult CardState
  | [], s => .ok s
  | lbName :: lbNames, s =>
    match ctxTop s.ctxChecks with
    | some e => .error ⟨s.trace, some e⟩
    | none =>
      let s1 : CardState :=
        ⟨s.items, s.respSize, false, s.trace, s.sendCount, s.ctxChecks + 1⟩
      match idxLabelValues lbName matchers with
      | .error e => .error ⟨s1.trace, some e⟩
      | .ok lbValues =>
        match lvcValuesLoop msgSizeThreshold matchers postingsForMatchersFn cctx sendErrAt
            lbName (arrival lbName lbValues) s1 with
        | .error r => .error r
        | .ok s2 =>
          lvcNamesLoop msgSizeThreshold matchers idxLabelValues postingsForMatchersFn arrival
            cctx ctxTop sendErrAt lbNames s2

/-- Go `labelValuesCardinality(lbNames, matchers, idxReader, postingsForMatchersFn,
msgSizeThreshold, srv)`. `arrival n vs` is the order in which the concurrent
per-value results for name `n` with value list `vs` reach the aggregator (a
permutation of `vs` in any run of the Go code); `cctx` is the context as seen by
the counting goroutines, `ctxTop k` is what `ctx.Err()` returns at the `k`-th
top-of-loop check, `sendErrAt k` the error of the `k`-th send attempt. -/
def labelValuesCardinality (lbNames : List String) (matchers : List Matcher)
    (idxLabelValues : String → List Matcher → Except Err (List String))
    (postingsForMatchersFn : List Matcher → Except Err Postings)
    (msgSizeThreshold : Nat)
    (arrival : String → List String → List String)
    (cctx ctxTop sendErrAt : Nat → Option Err) : CardResult :=
  match lvcNamesLoop msgSizeThreshold matchers idxLabelValues postingsForMatchersFn arrival
      cctx ctxTop sendErrAt lbNames ⟨[], 0, false, [], 0, 0⟩ with
  | .error r => r
  | .ok s =>
    if 0 < s.items.length then
      match sendErrAt s.sendCount with
      | some e => ⟨s.trace, some e⟩
      | none => ⟨s.trace ++ [⟨.finalSend, s.items, s.respSize⟩], none⟩
    else
      ⟨s.trace, none⟩

/-! ## Spec-described cardinality accounting

The spec describes the cardinality accumulator as counting "the sum of UTF-8
byte lengths of label names and label values actually placed in the batch".
`labelValuesCardinalityBySpec true` follows those words literally (a name is
placed when its per-name entry is created); `labelValuesCardinalityBySpec false`
is the amended accounting in which only the label values placed in the batch
are counted. Both keep the explicit list `placed` of the strings accounted for
since the last flush and flush when its total byte length reaches the
threshold. -/

/-- State of the spec-described cardinality computation: the pending batch, the
strings accounted for since the last flush, whether a per-name entry is open,
the delivered batches and effect counters. -/
structure CardSpecState where
  items : List CardItem
  placed : List String
  entryOpen : Bool
  trace : List CardEvent
  sendCount : Nat
  ctxChecks : Nat
deriving DecidableEq, Repr

/-- Modelled from the spec: result-consumption loop with the spec's accounting.
When `countNames` is true the label name's byte length is accounted for at
entry creation (the claim's reading); otherwise only values are accounted. -/
def lvcSpecValuesLoop (countNames : Bool) (msgSizeThreshold : Nat)
    (matchers : List Matcher)
    (postingsForMatchersFn : List Matcher → Except Err Postings)
    (cctx : Nat → Option Err) (sendErrAt : Nat → Option Err) (lbName : String) :
    List String → CardSpecState → Except CardResult CardSpecState
  | [], s => .ok s
  | v :: arrivals, s =>
    match countLabelValueSeries cctx lbName v postingsForMatchersFn matchers with
    | .error e => .error ⟨s.trace, some e⟩
    | .ok count =>
      let fresh := !s.entryOpen
      let items := if fresh then s.items ++ [⟨lbName, []⟩] else s.items
      let items := updateLast
        (fun it => { it with labelValueSeries := mapInsert it.labelValueSeries v count }) items
      let placed := s.placed ++ (if countNames && fresh then [lbName] else []) ++ [v]
      if (placed.map byteLen).sum < msgSizeThreshold then
        lvcSpecValuesLoop countNames msgSizeThreshold matchers postingsForMatchersFn cctx
          sendErrAt lbName arrivals ⟨items, placed, true, s.trace, s.sendCount, s.ctxChecks⟩
      else
        match sendErrAt s.sendCount with
        | some e => .error ⟨s.trace, some e⟩
        | none =>
          lvcSpecValuesLoop countNames msgSizeThreshold matchers postingsForMatchersFn cctx
            sendErrAt lbName arrivals
            ⟨[], [], false, s.trace ++ [⟨.flush, items, (placed.map byteLen).sum⟩],
              s.sendCount + 1, s.ctxChecks⟩

/-- Modelled from the spec: outer loop of the spec-described cardinality
computation. -/
def lvcSpecNamesLoop (countNames : Bool) (msgSizeThreshold : Nat)
    (matchers : List Matcher)
    (idxLabelValues : String → List Matcher → Except Err (List String))
    (postingsForMatchersFn : List Matcher → Except Err Postings)
    (arrival : String → List String → List String)
    (cctx ctxTop sendErrAt : Nat → Option Err) :
    List String → CardSpecState → Except CardResult CardSpecState
  | [], s => .ok s
  | lbName :: lbNames, s =>
    match ctxTop s.ctxChecks with
    | some e => .error ⟨s.trace, some e⟩
    | none =>
      let s1 : CardSpecState :=
        ⟨s.items, s.placed, false, s.trace, s.sendCount, s.ctxChecks + 1⟩
      match idxLabelValues lbName matchers with
      | .error e => .error ⟨s1.trace, some e⟩
      | .ok lbValues =>
        match lvcSpecValuesLoop countNames msgSizeThreshold matchers postingsForMatchersFn
            cctx sendErrAt lbName (arrival lbName lbValues) s1 with
        | .error r => .error r
        | .ok s2 =>
          lvcSpecNamesLoop countNames msgSizeThreshold matchers idxLabelValues
            postingsForMatchersFn arrival cctx ctxTop sendErrAt lbNames s2

/-- Modelled from the spec: the cardinality computation with the spec-described
size accounting (`countNames` selects the claim's literal reading or the
amended, values-only one). -/
def labelValuesCardinalityBySpec (countNames : Bool) (lbNames : List String)
    (matchers : List Matcher)
    (idxLabelValues : String → List Matcher → Except Err (List String))
    (postingsForMatchersFn : List Matcher → Except Err Postings)
    (msgSizeThreshold : Nat)
    (arrival : String → List String → List String)
    (cctx ctxTop sendErrAt : Nat → Option Err) : CardResult :=
  match lvcSpecNamesLoop countNames msgSizeThreshold matchers idxLabelValues
      postingsForMatchersFn arrival cctx ctxTop sendErrAt lbNames ⟨[], [], false, [], 0, 0⟩ with
  | .error r => r
  | .ok s =>
    if 0 < s.items.length then
      match sendErrAt s.sendCount with
      | some e => ⟨s.trace, some e⟩
      | none => ⟨s.trace ++ [⟨.finalSend, s.items, (s.placed.map byteLen).sum⟩], none⟩
    else
      ⟨s.trace, none⟩

/-! ## Auxiliary observations used by the statements -/

/-- The batches delivered so far, whether the loop halted or is still running. -/
def exTraceNV : Except NVResult NVState → List NVEvent
  | .error r => r.trace
  | .ok s => s.trace

/-- The batches delivered so far by the cardinality loops. -/
def exTraceCard : Except CardResult CardState → List CardEvent
  | .error r => r.trace
  | .ok s => s.trace

/-- The label values attached to entries for name `n` in an item list, in order. -/
def itemsVals (n : String) (its : List LVItem) : List String :=
  ((its.filter (fun it => it.labelName == n)).map (fun it => it.values)).flatten

/-- The concatenation, over a sequence of batches, of the values attached to
entries for name `n`, in delivery order. -/
def collectValues (n : String) (batches : List (List LVItem)) : List String :=
  itemsVals n batches.flatten

/-- The values for name `n` already delivered or still pending: delivered
batches first, then the pending items. -/
def nvTotal (n : String) (trace : List NVEvent) (items : List LVItem) : List String :=
  collectValues n (trace.map (fun ev => ev.batch)) ++ itemsVals n items

/-- Claim C1 as stated: each batch sent, except the final one, is flushed with
the size accumulator at or above the threshold, and the final batch is sent
only when it is non-empty. -/
def C1Claim (messageSizeThreshold : Nat) (r : NVResult) : Prop :=
  (∀ ev ∈ r.trace.dropLast, messageSizeThreshold ≤ ev.accAtFlush) ∧
  (∀ ev ∈ (r.trace.getLast?).toList, ev.batch ≠ [])

/-- Claim C9 as stated (the refuted part): no batch sent in the middle of the
stream is empty. -/
def C9Claim (r : NVResult) : Prop :=
  ∀ ev ∈ r.trace.dropLast, ev.batch ≠ []

/-- The count `c` is what the postings resolver yields for the caller's
matchers plus the equality matcher (n, v): the iterator makes exactly `c`
successful `Next()` advances and ends without a terminal error. -/
def countOK (postingsForMatchersFn : List Matcher → Except Err Postings)
    (matchers : List Matcher) (n v : String) (c : Nat) : Prop :=
  ∃ p, postingsForMatchersFn (matchers ++ [⟨.MatchEqual, n, v⟩]) = .ok p ∧
    p.terminalErr = none ∧ c = p.advances

/-- Every (value, count) entry of the item is a correct resolver count for the
item's label name. -/
def entriesOK (postingsForMatchersFn : List Matcher → Except Err Postings)
    (matchers : List Matcher) (it : CardItem) : Prop :=
  ∀ vc ∈ it.labelValueSeries, countOK postingsForMatchersFn matchers it.labelName vc.1 vc.2

/-- Every entry of every pending item is a correct resolver count. -/
def itemsOK (postingsForMatchersFn : List Matcher → Except Err Postings)
    (matchers : List Matcher) (items : List CardItem) : Prop :=
  ∀ it ∈ items, entriesOK postingsForMatchersFn matchers it

/-- Every entry of every item of every delivered batch is a correct resolver
count. -/
def traceOK (postingsForMatchersFn : List Matcher → Except Err Postings)
    (matchers : List Matcher) (trace : List CardEvent) : Prop :=
  ∀ ev ∈ trace, itemsOK postingsForMatchersFn matchers ev.batch

/-- The item list is non-empty and its last item carries label name `n`. -/
def lastNamed (n : String) (items : List CardItem) : Prop :=
  ∃ h : items ≠ [], (items.getLast h).labelName = n

/-- The pair (v, c) is recorded for label name `n` somewhere in the pending
items or in an already delivered batch. -/
def hasEntry (n v : String) (c : Nat) (items : List CardItem) (trace : List CardEvent) : Prop :=
  (∃ it ∈ items, it.labelName = n ∧ (v, c) ∈ it.labelValueSeries) ∨
  (∃ ev ∈ trace, ∃ it ∈ ev.batch, it.labelName = n ∧ (v, c) ∈ it.labelValueSeries)

/-! ## Basic lemmas -/

theorem bitsLen_pos {n : Nat} (h : n ≠ 0) : 1 ≤ bitsLen n := by
  cases n with
  | zero => exact absurd rfl h
  | succ m => simp [bitsLen, bitsLenAux]

theorem lor_one_ne_zero (x : Nat) : x ||| 1 ≠ 0 := by
  intro h
  have ht : Nat.testBit (x ||| 1) 0 = true := by
    rw [Nat.testBit_lor]
    simp
  rw [h] at ht
  simp at ht

theorem sovIngester_pos (x : Nat) : 1 ≤ sovIngester x := by
  have h1 : 1 ≤ bitsLen (x ||| 1) := bitsLen_pos (lor_one_ne_zero x)
  have : 1 * 7 ≤ bitsLen (x ||| 1) + 6 := by omega
  exact Nat.le_div_iff_mul_le (by norm_num) |>.mpr this

theorem countLoop_eq (ctx : Nat → Option Err) (left count : Nat) :
    countLoop ctx left count =
      match ((List.range' (count + 1) left).filter
          (fun k => k % checkContextErrorSeriesCount == 0)).findSome? ctx with
      | some e => .error e
      | none => .ok (count + left) := by
  induction left generalizing count with
  | zero => simp [countLoop, List.range']
  | succ n ih =>
    rw [List.range'_succ, countLoop]
    have harith : count + 1 + n = count + (n + 1) := by omega
    by_cases h : (count + 1) % checkContextErrorSeriesCount = 0
    · have hb : ((count + 1) % checkContextErrorSeriesCount == 0) = true := by simp [h]
      rw [if_pos h]
      cases hc : ctx (count + 1) with
      | some e => simp [List.filter_cons, hb, List.findSome?_cons, hc]
      | none =>
        rw [ih]
        simp [List.filter_cons, hb, List.findSome?_cons, hc, harith]
    · have hb : ((count + 1) % checkContextErrorSeriesCount == 0) = false := by
        simpa using h
      simp only [List.filter_cons, hb, if_neg h, Bool.false_eq_true, if_false]
      rw [ih, harith]

/-- C4 (confirmed): `countLabelValueSeries` appends exactly one equality matcher
for (name, value) to a copy of the caller's matchers, counts iterator advances,
checks the supplied context exactly at every 1000th advance (returning the
context's error then), and after exhaustion returns the iterator's terminal
error if non-nil, else the count. -/
theorem C4_countLabelValueSeries_contract (ctx : Nat → Option Err) (lbName lbValue : String)
    (postingsForMatchersFn : List Matcher → Except Err Postings) (matchers : List Matcher) :
    countLabelValueSeries ctx lbName lbValue postingsForMatchersFn matchers =
      match postingsForMatchersFn (matchers ++ [⟨.MatchEqual, lbName, lbValue⟩]) with
      | .error e => .error e
      | .ok p =>
        match ((List.range' 1 p.advances).filter
            (fun k => k % checkContextErrorSeriesCount == 0)).findSome? ctx with
        | some e => .error e
        | none =>
          match p.terminalErr with
          | some e => .error e
          | none => .ok p.advances := by
  simp only [countLabelValueSeries]
  cases hr : postingsForMatchersFn (matchers ++ [⟨.MatchEqual, lbName, lbValue⟩]) with
  | error e => rfl
  | ok p =>
    simp only [countLoop_eq, Nat.zero_add]
    cases ((List.range' 1 p.advances).filter
        (fun k => k % checkContextErrorSeriesCount == 0)).findSome? ctx with
    | some e => rfl
    | none => rfl

/-- C7 counterexample: on one 8-byte label name with two 1-byte values and
threshold 5, the code sends a single (final) batch, while the claim's
accounting (names counted towards the accumulator) would flush twice. -/
theorem C7_claim_counterexample :
    labelValuesCardinality ["abcdefgh"] [] (fun _ _ => .ok ["x", "y"])
        (fun _ => .ok ⟨2, none⟩) 5 (fun _ vs => vs)
        (fun _ => none) (fun _ => none) (fun _ => none) ≠
      labelValuesCardinalityBySpec true ["abcdefgh"] [] (fun _ _ => .ok ["x", "y"])
        (fun _ => .ok ⟨2, none⟩) 5 (fun _ vs => vs)
        (fun _ => none) (fun _ => none) (fun _ => none) := by
  decide

theorem lvcSpecValuesLoop_sim (T : Nat) (ms : List Matcher)
    (rf : List Matcher → Except Err Postings) (cctx sendErrAt : Nat → Option Err)
    (lbName : String) (arrivals : List String) :
    ∀ (s : CardState) (placed : List String),
      (placed.map byteLen).sum = s.respSize →
      match lvcValuesLoop T ms rf cctx sendErrAt lbName arrivals s with
      | .error r =>
          lvcSpecValuesLoop false T ms rf cctx sendErrAt lbName arrivals
            ⟨s.items, placed, s.entryOpen, s.trace, s.sendCount, s.ctxChecks⟩ = .error r
      | .ok s1 =>
          ∃ placed1, (placed1.map byteLen).sum = s1.respSize ∧
            lvcSpecValuesLoop false T ms rf cctx sendErrAt lbName arrivals
              ⟨s.items, placed, s.entryOpen, s.trace, s.sendCount, s.ctxChecks⟩ =
              .ok ⟨s1.items, placed1, s1.entryOpen, s1.trace, s1.sendCount, s1.ctxChecks⟩ := by
  induction arrivals with
  | nil =>
    intro s placed h
    exact ⟨placed, h, rfl⟩
  | cons v rest ih =>
    intro s placed h
    simp only [lvcValuesLoop, lvcSpecValuesLoop]
    cases hcnt : countLabelValueSeries cctx lbName v rf ms with
    | error e => simp
    | ok count =>
      have hsum : ((placed ++ [v]).map byteLen).sum = s.respSize + byteLen v := by
        simp [h]
      cases hopen : s.entryOpen with
      | true =>
        simp only [Bool.not_true, Bool.false_and, Bool.false_eq_true, if_false, if_true,
          List.append_nil, hsum]
        by_cases hlt : s.respSize + byteLen v < T
        · simp only [if_pos hlt]
          exact ih _ (placed ++ [v]) hsum
        · simp only [if_neg hlt]
          cases hsend : sendErrAt s.sendCount with
          | some e => simp
          | none =>
            exact ih _ [] rfl
      | false =>
        simp only [Bool.not_false, Bool.false_and, Bool.false_eq_true, if_false, if_true,
          List.append_nil, hsum]
        by_cases hlt : s.respSize + byteLen v < T
        · simp only [if_pos hlt]
          exact ih _ (placed ++ [v]) hsum
        · simp only [if_neg hlt]
          cases hsend : sendErrAt s.sendCount with
          | some e => simp
          | none =>
            exact ih _ [] rfl

theorem lvcSpecNamesLoop_sim (T : Nat) (ms : List Matcher)
    (idx : String → List Matcher → Except Err (List String))
    (rf : List Matcher → Except Err Postings)
    (arrival : String → List String → List String)
    (cctx ctxTop sendErrAt : Nat → Option Err) (lbNames : List String) :
    ∀ (s : CardState) (placed : List String),
      (placed.map byteLen).sum = s.respSize →
      match lvcNamesLoop T ms idx rf arrival cctx ctxTop sendErrAt lbNames s with
      | .error r =>
          lvcSpecNamesLoop false T ms idx rf arrival cctx ctxTop sendErrAt lbNames
            ⟨s.items, placed, s.entryOpen, s.trace, s.sendCount, s.ctxChecks⟩ = .error r
      | .ok s1 =>
          ∃ placed1, (placed1.map byteLen).sum = s1.respSize ∧
            lvcSpecNamesLoop false T ms idx rf arrival cctx ctxTop sendErrAt lbNames
              ⟨s.items, placed, s.entryOpen, s.trace, s.sendCount, s.ctxChecks⟩ =
              .ok ⟨s1.items, placed1, s1.entryOpen, s1.trace, s1.sendCount, s1.ctxChecks⟩ := by
  induction lbNames with
  | nil =>
    intro s placed h
    exact ⟨placed, h, rfl⟩
  | cons n ns ih =>
    intro s placed h
    simp only [lvcNamesLoop, lvcSpecNamesLoop]
    cases hctx : ctxTop s.ctxChecks with
    | some e => simp
    | none =>
      cases hidx : idx n ms with
      | error e => simp
      | ok lbValues =>
        dsimp only
        have hv := lvcSpecValuesLoop_sim T ms rf cctx sendErrAt n (arrival n lbValues)
          ⟨s.items, s.respSize, false, s.trace, s.sendCount, s.ctxChecks + 1⟩ placed h
        dsimp only at hv
        cases hr : lvcValuesLoop T ms rf cctx sendErrAt n (arrival n lbValues)
            ⟨s.items, s.respSize, false, s.trace, s.sendCount, s.ctxChecks + 1⟩ with
        | error r =>
          rw [hr] at hv
          dsimp only at hv
          rw [hv]
        | ok s2 =>
          rw [hr] at hv
          dsimp only at hv
          obtain ⟨placed1, hp1, hspec⟩ := hv
          rw [hspec]
          exact ih s2 placed1 hp1

/-- C7 (corrected): for every input, `labelValuesCardinality` behaves exactly
like the spec-described computation with the amended accounting: the size
accumulator counts only the UTF-8 byte lengths of the label values actually
placed in the batch (label names contribute nothing), and when it reaches the
threshold the batch is sent, the item list cleared, the accumulator reset to 0
and the per-name entry reference dropped so a fresh entry is created for any
further values of the same name. -/
theorem C7_cardinality_accounting_amended (lbNames : List String) (ms : List Matcher)
    (idx : String → List Matcher → Except Err (List String))
    (rf : List Matcher → Except Err Postings) (T : Nat)
    (arrival : String → List String → List String)
    (cctx ctxTop sendErrAt : Nat → Option Err) :
    labelValuesCardinality lbNames ms idx rf T arrival cctx ctxTop sendErrAt =
      labelValuesCardinalityBySpec false lbNames ms idx rf T arrival cctx ctxTop sendErrAt := by
  unfold labelValuesCardinality labelValuesCardinalityBySpec
  have hv := lvcSpecNamesLoop_sim T ms idx rf arrival cctx ctxTop sendErrAt lbNames
    ⟨[], 0, false, [], 0, 0⟩ [] rfl
  dsimp only at hv
  cases hr : lvcNamesLoop T ms idx rf arrival cctx ctxTop sendErrAt lbNames
      ⟨[], 0, false, [], 0, 0⟩ with
  | error r =>
    rw [hr] at hv
    dsimp only at hv
    rw [hv]
  | ok s =>
    rw [hr] at hv
    dsimp only at hv
    obtain ⟨placed1, hp1, hspec⟩ := hv
    dsimp only
    rw [hspec]
    dsimp only
    rw [hp1]

theorem countLabelValueSeries_ok {cctx : Nat → Option Err} {n v : String}
    {rf : List Matcher → Except Err Postings} {ms : List Matcher} {c : Nat}
    (h : countLabelValueSeries cctx n v rf ms = .ok c) : countOK rf ms n v c := by
  unfold countLabelValueSeries at h
  dsimp only at h
  cases hr : rf (ms ++ [⟨.MatchEqual, n, v⟩]) with
  | error e => rw [hr] at h; exact absurd h (by simp)
  | ok p =>
    rw [hr] at h
    dsimp only at h
    rw [countLoop_eq] at h
    cases hf : ((List.range' (0 + 1) p.advances).filter
        (fun k => k % checkContextErrorSeriesCount == 0)).findSome? cctx with
    | some e => rw [hf] at h; exact absurd h (by simp)
    | none =>
      rw [hf] at h
      dsimp only at h
      cases ht : p.terminalErr with
      | some e => rw [ht] at h; exact absurd h (by simp)
      | none =>
        rw [ht] at h
        have hc : c = p.advances := by
          have := h
          simp only [Except.ok.injEq] at this
          omega
        exact ⟨p, hr, ht, hc⟩

theorem mapInsert_mem {m : List (String × Nat)} {k : String} {v : Nat} {vc : String × Nat}
    (h : vc ∈ mapInsert m k v) : vc ∈ m ∨ vc = (k, v) := by
  unfold mapInsert at h
  by_cases ha : m.any (fun p => p.1 == k)
  · rw [if_pos ha] at h
    obtain ⟨p, hp, hpe⟩ := List.mem_map.mp h
    by_cases hk : p.1 == k
    · rw [if_pos hk] at hpe
      exact Or.inr hpe.symm
    · rw [if_neg hk] at hpe
      exact Or.inl (hpe ▸ hp)
  · rw [if_neg ha] at h
    rcases List.mem_append.mp h with h1 | h1
    · exact Or.inl h1
    · exact Or.inr (List.mem_singleton.mp h1)

theorem updateLast_eq (f : CardItem → CardItem) :
    ∀ (l : List CardItem) (h : l ≠ []),
      updateLast f l = l.dropLast ++ [f (l.getLast h)]
  | [], h => absurd rfl h
  | [_], _ => rfl
  | it :: b :: rest, _ => by
    have ih := updateLast_eq f (b :: rest) (by simp)
    simp only [updateLast, ih, List.dropLast_cons₂, List.getLast_cons (by simp : b :: rest ≠ [])]
    rfl

theorem updateLast_step {rf : List Matcher → Except Err Postings} {ms : List Matcher}
    {n : String} {f : CardItem → CardItem} {items : List CardItem}
    (hne : items ≠ []) (hAll : itemsOK rf ms items)
    (hlast : (items.getLast hne).labelName = n)
    (hf : ∀ it, entriesOK rf ms it → it.labelName = n →
      entriesOK rf ms (f it) ∧ (f it).labelName = n) :
    itemsOK rf ms (updateLast f items) ∧ lastNamed n (updateLast f items) := by
  rw [updateLast_eq f items hne]
  obtain ⟨hfE, hfN⟩ := hf _ (hAll _ (List.getLast_mem hne)) hlast
  refine ⟨?_, ⟨by simp, ?_⟩⟩
  · intro it hit
    rcases List.mem_append.mp hit with h1 | h1
    · exact hAll _ (List.dropLast_subset _ h1)
    · rw [List.mem_singleton.mp h1]
      exact hfE
  · rw [List.getLast_concat]
    exact hfN

theorem lvcValuesLoop_countOK (T : Nat) (ms : List Matcher)
    (rf : List Matcher → Except Err Postings) (cctx sendErrAt : Nat → Option Err)
    (n : String) (arrivals : List String) :
    ∀ (s : CardState), itemsOK rf ms s.items → traceOK rf ms s.trace →
      (s.entryOpen = true → lastNamed n s.items) →
      match lvcValuesLoop T ms rf cctx sendErrAt n arrivals s with
      | .error r => traceOK rf ms r.trace
      | .ok s1 => itemsOK rf ms s1.items ∧ traceOK rf ms s1.trace ∧
          (s1.entryOpen = true → lastNamed n s1.items) := by
  induction arrivals with
  | nil =>
    intro s hi ht ho
    exact ⟨hi, ht, ho⟩
  | cons v rest ih =>
    intro s hi ht ho
    simp only [lvcValuesLoop]
    cases hcnt : countLabelValueSeries cctx n v rf ms with
    | error e => exact ht
    | ok count =>
      dsimp only
      have hck := countLabelValueSeries_ok hcnt
      have hf : ∀ it : CardItem, entriesOK rf ms it → it.labelName = n →
          entriesOK rf ms { it with labelValueSeries := mapInsert it.labelValueSeries v count } ∧
          ({ it with labelValueSeries := mapInsert it.labelValueSeries v count } : CardItem).labelName = n := by
        intro it hE hN
        refine ⟨?_, hN⟩
        intro vc hvc
        rcases mapInsert_mem hvc with h1 | h1
        · exact hE vc h1
        · rw [h1]
          show countOK rf ms it.labelName v count
          rw [hN]
          exact hck
      cases hopen : s.entryOpen with
      | true =>
        obtain ⟨hne, hlast⟩ := ho hopen
        simp only [if_true]
        obtain ⟨hiu, hlu⟩ := updateLast_step hne hi hlast hf
        by_cases hlt : s.respSize + byteLen v < T
        · rw [if_pos hlt]
          exact ih _ hiu ht (fun _ => hlu)
        · rw [if_neg hlt]
          cases hsend : sendErrAt s.sendCount with
          | some e => exact ht
          | none =>
            refine ih _ (by intro it h; simp at h) ?_ (by intro h; simp at h)
            intro ev hev
            rcases List.mem_append.mp hev with h1 | h1
            · exact ht ev h1
            · rw [List.mem_singleton.mp h1]
              exact hiu
      | false =>
        simp only [Bool.false_eq_true, if_false]
        have hne : s.items ++ [(⟨n, []⟩ : CardItem)] ≠ [] := by simp
        have hAll : itemsOK rf ms (s.items ++ [(⟨n, []⟩ : CardItem)]) := by
          intro it hit
          rcases List.mem_append.mp hit with h1 | h1
          · exact hi _ h1
          · rw [List.mem_singleton.mp h1]
            intro vc hvc
            simp at hvc
        have hlast : ((s.items ++ [(⟨n, []⟩ : CardItem)]).getLast hne).labelName = n := by
          rw [List.getLast_concat]
        obtain ⟨hiu, hlu⟩ := updateLast_step hne hAll hlast hf
        by_cases hlt : s.respSize + byteLen v < T
        · rw [if_pos hlt]
          exact ih _ hiu ht (fun _ => hlu)
        · rw [if_neg hlt]
          cases hsend : sendErrAt s.sendCount with
          | some e => exact ht
          | none =>
            refine ih _ (by intro it h; simp at h) ?_ (by intro h; simp at h)
            intro ev hev
            rcases List.mem_append.mp hev with h1 | h1
            · exact ht ev h1
            · rw [List.mem_singleton.mp h1]
              exact hiu

theorem lvcNamesLoop_countOK (T : Nat) (ms : List Matcher)
    (idx : String → List Matcher → Except Err (List String))
    (rf : List Matcher → Except Err Postings)
    (arrival : String → List String → List String)
    (cctx ctxTop sendErrAt : Nat → Option Err) (lbNames : List String) :
    ∀ (s : CardState), itemsOK rf ms s.items → traceOK rf ms s.trace →
      match lvcNamesLoop T ms idx rf arrival cctx ctxTop sendErrAt lbNames s with
      | .error r => traceOK rf ms r.trace
      | .ok s1 => itemsOK rf ms s1.items ∧ traceOK rf ms s1.trace := by
  induction lbNames with
  | nil =>
    intro s hi ht
    exact ⟨hi, ht⟩
  | cons nm ns ih =>
    intro s hi ht
    simp only [lvcNamesLoop]
    cases hctx : ctxTop s.ctxChecks with
    | some e => exact ht
    | none =>
      dsimp only
      cases hidx : idx nm ms with
      | error e => exact ht
      | ok lbValues =>
        dsimp only
        have hv := lvcValuesLoop_countOK T ms rf cctx sendErrAt nm (arrival nm lbValues)
          ⟨s.items, s.respSize, false, s.trace, s.sendCount, s.ctxChecks + 1⟩ hi ht
          (by intro h; simp at h)
        cases hr : lvcValuesLoop T ms rf cctx sendErrAt nm (arrival nm lbValues)
            ⟨s.items, s.respSize, false, s.trace, s.sendCount, s.ctxChecks + 1⟩ with
        | error r =>
          rw [hr] at hv
          exact hv
        | ok s2 =>
          rw [hr] at hv
          obtain ⟨hi2, ht2, _⟩ := hv
          exact ih s2 hi2 ht2

theorem labelValuesCardinality_countOK (lbNames : List String) (ms : List Matcher)
    (idx : String → List Matcher → Except Err (List String))
    (rf : List Matcher → Except Err Postings) (T : Nat)
    (arrival : String → List String → List String)
    (cctx ctxTop sendErrAt : Nat → Option Err) :
    traceOK rf ms (labelValuesCardinality lbNames ms idx rf T arrival cctx ctxTop sendErrAt).trace := by
  unfold labelValuesCardinality
  have hv := lvcNamesLoop_countOK T ms idx rf arrival cctx ctxTop sendErrAt lbNames
    ⟨[], 0, false, [], 0, 0⟩ (by intro it h; simp at h) (by intro ev h; simp at h)
  cases hr : lvcNamesLoop T ms idx rf arrival cctx ctxTop sendErrAt lbNames
      ⟨[], 0, false, [], 0, 0⟩ with
  | error r =>
    rw [hr] at hv
    exact hv
  | ok s =>
    rw [hr] at hv
    obtain ⟨hi, ht⟩ := hv
    dsimp only
    by_cases hl : 0 < s.items.length
    · rw [if_pos hl]
      cases hsend : sendErrAt s.sendCount with
      | some e => exact ht
      | none =>
        intro ev hev
        rcases List.mem_append.mp hev with h1 | h1
        · exact ht ev h1
        · rw [List.mem_singleton.mp h1]
          exact hi
    · rw [if_neg hl]
      exact ht

theorem mapInsert_self (mold : List (String × Nat)) (k : String) (c : Nat) :
    (k, c) ∈ mapInsert mold k c := by
  unfold mapInsert
  by_cases ha : mold.any (fun p => p.1 == k) = true
  · rw [if_pos ha]
    obtain ⟨p, hp, hpk⟩ := List.any_eq_true.mp ha
    exact List.mem_map.mpr ⟨p, hp, by rw [if_pos hpk]⟩
  · rw [if_neg ha]
    exact List.mem_append.mpr (Or.inr (List.mem_singleton.mpr rfl))

theorem mapInsert_of_ne {mold : List (String × Nat)} {v k : String} {c c' : Nat}
    (hmem : (v, c) ∈ mold) (hne : v ≠ k) : (v, c) ∈ mapInsert mold k c' := by
  unfold mapInsert
  by_cases ha : mold.any (fun p => p.1 == k) = true
  · rw [if_pos ha]
    exact List.mem_map.mpr ⟨(v, c), hmem, by rw [if_neg (by simpa using hne)]⟩
  · rw [if_neg ha]
    exact List.mem_append.mpr (Or.inl hmem)

theorem hasEntry_append_item {n v : String} {c : Nat} {items : List CardItem}
    {trace : List CardEvent} {extra : List CardItem}
    (h : hasEntry n v c items trace) : hasEntry n v c (items ++ extra) trace := by
  rcases h with ⟨it, hit, hn, hp⟩ | h
  · exact Or.inl ⟨it, List.mem_append.mpr (Or.inl hit), hn, hp⟩
  · exact Or.inr h

theorem hasEntry_flush {n v : String} {c : Nat} {items : List CardItem}
    {trace : List CardEvent} {ev : CardEvent} (hb : ev.batch = items)
    (h : hasEntry n v c items trace) : hasEntry n v c [] (trace ++ [ev]) := by
  rcases h with ⟨it, hit, hn, hp⟩ | ⟨e, he, it, hit, hn, hp⟩
  · exact Or.inr ⟨ev, List.mem_append.mpr (Or.inr (List.mem_singleton.mpr rfl)), it,
      hb ▸ hit, hn, hp⟩
  · exact Or.inr ⟨e, List.mem_append.mpr (Or.inl he), it, hit, hn, hp⟩

theorem hasEntry_updateLast {n v v0 m : String} {cnt : String → String → Nat}
    {items : List CardItem} {trace : List CardEvent}
    (hne : items ≠ []) (hlast : (items.getLast hne).labelName = m)
    (h : hasEntry n v (cnt n v) items trace) :
    hasEntry n v (cnt n v)
      (updateLast (fun it =>
        { it with labelValueSeries := mapInsert it.labelValueSeries v0 (cnt m v0) }) items)
      trace := by
  rcases h with ⟨it, hit, hn, hp⟩ | h
  · rw [updateLast_eq _ items hne]
    conv at hit => rw [← List.dropLast_append_getLast hne]
    rcases List.mem_append.mp hit with h1 | h1
    · exact Or.inl ⟨it, List.mem_append.mpr (Or.inl h1), hn, hp⟩
    · rw [List.mem_singleton.mp h1] at hn hp
      have hnm : n = m := by rw [← hn, hlast]
      refine Or.inl ⟨_, List.mem_append.mpr (Or.inr (List.mem_singleton.mpr rfl)), ?_, ?_⟩
      · exact hlast.trans hnm.symm
      · show (v, cnt n v) ∈ mapInsert (items.getLast hne).labelValueSeries v0 (cnt m v0)
        by_cases hv : v = v0
        · rw [hv, hnm]
          exact mapInsert_self _ v0 (cnt m v0)
        · exact mapInsert_of_ne hp hv
  · exact Or.inr h

theorem lvcValuesLoop_complete (T : Nat) (ms : List Matcher)
    (rf : List Matcher → Except Err Postings) (cctx : Nat → Option Err)
    (cnt : String → String → Nat)
    (Hcnt : ∀ a b, countLabelValueSeries cctx a b rf ms = .ok (cnt a b))
    (m : String) (arrivals : List String) :
    ∀ (s : CardState), (s.entryOpen = true → lastNamed m s.items) →
      ∃ s1, lvcValuesLoop T ms rf cctx (fun _ => none) m arrivals s = .ok s1 ∧
        (s1.entryOpen = true → lastNamed m s1.items) ∧
        (∀ n v, hasEntry n v (cnt n v) s.items s.trace →
          hasEntry n v (cnt n v) s1.items s1.trace) ∧
        (∀ v ∈ arrivals, hasEntry m v (cnt m v) s1.items s1.trace) := by
  induction arrivals with
  | nil =>
    intro s ho
    exact ⟨s, rfl, ho, fun n v h => h, by intro v hv; simp at hv⟩
  | cons v0 rest ih =>
    intro s ho
    simp only [lvcValuesLoop, Hcnt m v0]
    have key : ∀ items0 : List CardItem,
        (∃ hne : items0 ≠ [], ((items0.getLast hne).labelName = m)) →
        (∀ n v, hasEntry n v (cnt n v) s.items s.trace →
          hasEntry n v (cnt n v) items0 s.trace) →
        ∃ s1,
          (if s.respSize + byteLen v0 < T then
            lvcValuesLoop T ms rf cctx (fun _ => none) m rest
              ⟨updateLast (fun it =>
                { it with labelValueSeries := mapInsert it.labelValueSeries v0 (cnt m v0) })
                items0,
               s.respSize + byteLen v0, true, s.trace, s.sendCount, s.ctxChecks⟩
          else
            lvcValuesLoop T ms rf cctx (fun _ => none) m rest
              ⟨[], 0, false,
               s.trace ++ [⟨.flush,
                 updateLast (fun it =>
                   { it with labelValueSeries := mapInsert it.labelValueSeries v0 (cnt m v0) })
                   items0,
                 s.respSize + byteLen v0⟩],
               s.sendCount + 1, s.ctxChecks⟩) = .ok s1 ∧
          (s1.entryOpen = true → lastNamed m s1.items) ∧
          (∀ n v, hasEntry n v (cnt n v) s.items s.trace →
            hasEntry n v (cnt n v) s1.items s1.trace) ∧
          (∀ v ∈ v0 :: rest, hasEntry m v (cnt m v) s1.items s1.trace) := by
      intro items0 hlast0 hpres0
      obtain ⟨hne, hlast⟩ := hlast0
      have hlast1 : lastNamed m (updateLast (fun it =>
          { it with labelValueSeries := mapInsert it.labelValueSeries v0 (cnt m v0) }) items0) := by
        rw [updateLast_eq _ items0 hne]
        refine ⟨by simp, ?_⟩
        rw [List.getLast_concat]
        exact hlast
      have hadd : hasEntry m v0 (cnt m v0) (updateLast (fun it =>
          { it with labelValueSeries := mapInsert it.labelValueSeries v0 (cnt m v0) }) items0)
          s.trace := by
        refine Or.inl ⟨{ items0.getLast hne with
          labelValueSeries := mapInsert (items0.getLast hne).labelValueSeries v0 (cnt m v0) },
          ?_, hlast, mapInsert_self _ v0 (cnt m v0)⟩
        rw [updateLast_eq _ items0 hne]
        exact List.mem_append.mpr (Or.inr (List.mem_singleton.mpr rfl))
      have hpres : ∀ n v, hasEntry n v (cnt n v) s.items s.trace →
          hasEntry n v (cnt n v) (updateLast (fun it =>
            { it with labelValueSeries := mapInsert it.labelValueSeries v0 (cnt m v0) }) items0)
            s.trace :=
        fun n v h => hasEntry_updateLast hne hlast (hpres0 n v h)
      by_cases hlt : s.respSize + byteLen v0 < T
      · rw [if_pos hlt]
        obtain ⟨s1, hrun, ho1, hpres1, hadd1⟩ := ih
          ⟨updateLast (fun it =>
            { it with labelValueSeries := mapInsert it.labelValueSeries v0 (cnt m v0) }) items0,
           s.respSize + byteLen v0, true, s.trace, s.sendCount, s.ctxChecks⟩
          (fun _ => hlast1)
        refine ⟨s1, hrun, ho1, fun n v h => hpres1 n v (hpres n v h), ?_⟩
        intro v hv
        rcases List.mem_cons.mp hv with hv0 | hvr
        · rw [hv0]
          exact hpres1 m v0 hadd
        · exact hadd1 v hvr
      · rw [if_neg hlt]
        obtain ⟨s1, hrun, ho1, hpres1, hadd1⟩ := ih
          ⟨[], 0, false,
           s.trace ++ [⟨.flush,
             updateLast (fun it =>
               { it with labelValueSeries := mapInsert it.labelValueSeries v0 (cnt m v0) })
               items0,
             s.respSize + byteLen v0⟩],
           s.sendCount + 1, s.ctxChecks⟩
          (by intro h; simp at h)
        refine ⟨s1, hrun, ho1,
          fun n v h => hpres1 n v (hasEntry_flush rfl (hpres n v h)), ?_⟩
        intro v hv
        rcases List.mem_cons.mp hv with hv0 | hvr
        · rw [hv0]
          exact hpres1 m v0 (hasEntry_flush rfl hadd)
        · exact hadd1 v hvr
    cases hopen : s.entryOpen with
    | true =>
      simp only [if_true]
      exact key s.items (ho hopen) (fun n v h => h)
    | false =>
      simp only [Bool.false_eq_true, if_false]
      refine key (s.items ++ [(⟨m, []⟩ : CardItem)])
        ⟨by simp, by rw [List.getLast_concat]⟩
        (fun n v h => hasEntry_append_item h)

theorem lvcNamesLoop_complete (T : Nat) (ms : List Matcher)
    (rf : List Matcher → Except Err Postings) (cctx : Nat → Option Err)
    (cnt : String → String → Nat)
    (Hcnt : ∀ a b, countLabelValueSeries cctx a b rf ms = .ok (cnt a b))
    (vals : String → List String) (arrival : String → List String → List String)
    (lbNames : List String) :
    ∀ (s : CardState),
      ∃ s1, lvcNamesLoop T ms (fun n _ => .ok (vals n)) rf arrival cctx (fun _ => none)
          (fun _ => none) lbNames s = .ok s1 ∧
        (∀ n v, hasEntry n v (cnt n v) s.items s.trace →
          hasEntry n v (cnt n v) s1.items s1.trace) ∧
        (∀ nm ∈ lbNames, ∀ v ∈ arrival nm (vals nm),
          hasEntry nm v (cnt nm v) s1.items s1.trace) := by
  induction lbNames with
  | nil =>
    intro s
    exact ⟨s, rfl, fun n v h => h, by intro nm hnm; simp at hnm⟩
  | cons nm ns ih =>
    intro s
    simp only [lvcNamesLoop]
    obtain ⟨s2, hrun, _, hpres2, hadd2⟩ := lvcValuesLoop_complete T ms rf cctx cnt Hcnt nm
      (arrival nm (vals nm))
      ⟨s.items, s.respSize, false, s.trace, s.sendCount, s.ctxChecks + 1⟩
      (by intro h; simp at h)
    rw [hrun]
    obtain ⟨s1, hrun1, hpres1, hadd1⟩ := ih s2
    refine ⟨s1, hrun1, fun n v h => hpres1 n v (hpres2 n v h), ?_⟩
    intro nm2 hnm2 v hv
    rcases List.mem_cons.mp hnm2 with h1 | h1
    · rw [h1]
      rw [h1] at hv
      exact hpres1 nm v (hadd2 v hv)
    · exact hadd1 nm2 h1 v hv

theorem labelValuesCardinality_complete (lbNames : List String) (ms : List Matcher)
    (vals : String → List String) (rf : List Matcher → Except Err Postings) (T : Nat)
    (arrival : String → List String → List String) (cctx : Nat → Option Err)
    (cnt : String → String → Nat)
    (Hcnt : ∀ a b, countLabelValueSeries cctx a b rf ms = .ok (cnt a b)) :
    ∀ nm ∈ lbNames, ∀ v ∈ arrival nm (vals nm),
      ∃ ev ∈ (labelValuesCardinality lbNames ms (fun n _ => .ok (vals n)) rf T arrival
          cctx (fun _ => none) (fun _ => none)).trace,
        ∃ it ∈ ev.batch, it.labelName = nm ∧ (v, cnt nm v) ∈ it.labelValueSeries := by
  intro nm hnm v hv
  unfold labelValuesCardinality
  obtain ⟨s1, hrun, _, hadd⟩ := lvcNamesLoop_complete T ms rf cctx cnt Hcnt vals arrival
    lbNames ⟨[], 0, false, [], 0, 0⟩
  rw [hrun]
  dsimp only
  have hP := hadd nm hnm v hv
  by_cases hl : 0 < s1.items.length
  · rw [if_pos hl]
    rcases hP with ⟨it, hit, hn, hp⟩ | ⟨ev, hev, it, hit, hn, hp⟩
    · exact ⟨⟨.finalSend, s1.items, s1.respSize⟩,
        List.mem_append.mpr (Or.inr (List.mem_singleton.mpr rfl)), it, hit, hn, hp⟩
    · exact ⟨ev, List.mem_append.mpr (Or.inl hev), it, hit, hn, hp⟩
  · rw [if_neg hl]
    rcases hP with ⟨it, hit, _, _⟩ | ⟨ev, hev, it, hit, hn, hp⟩
    · have hnil : s1.items = [] := List.length_eq_zero.mp (by omega)
      rw [hnil] at hit
      simp at hit
    · exact ⟨ev, hev, it, hit, hn, hp⟩

/-- C3 (confirmed): every count recorded in a batch sent by
`labelValuesCardinality` equals the number of successful `Next()` advances of
the postings iterator the resolver yields for the caller's matchers plus the
equality matcher (name, value); and in an error-free run every value of every
requested label name is recorded in some sent batch with exactly that count. -/
theorem C3_cardinality_correct :
    (∀ (lbNames : List String) (ms : List Matcher)
      (idx : String → List Matcher → Except Err (List String))
      (rf : List Matcher → Except Err Postings) (T : Nat)
      (arrival : String → List String → List String) (cctx ctxTop sendErrAt : Nat → Option Err),
      ∀ ev ∈ (labelValuesCardinality lbNames ms idx rf T arrival cctx ctxTop sendErrAt).trace,
        ∀ it ∈ ev.batch, ∀ vc ∈ it.labelValueSeries,
          countOK rf ms it.labelName vc.1 vc.2) ∧
    (∀ (lbNames : List String) (ms : List Matcher) (vals : String → List String)
      (rf : List Matcher → Except Err Postings) (T : Nat)
      (arrival : String → List String → List String) (cctx : Nat → Option Err)
      (cnt : String → String → Nat),
      (∀ a b, countLabelValueSeries cctx a b rf ms = .ok (cnt a b)) →
      (∀ n, (arrival n (vals n)).Perm (vals n)) →
      ∀ nm ∈ lbNames, ∀ v ∈ vals nm,
        ∃ ev ∈ (labelValuesCardinality lbNames ms (fun n _ => .ok (vals n)) rf T arrival
            cctx (fun _ => none) (fun _ => none)).trace,
          ∃ it ∈ ev.batch, it.labelName = nm ∧ (v, cnt nm v) ∈ it.labelValueSeries) := by
  constructor
  · intro lbNames ms idx rf T arrival cctx ctxTop sendErrAt
    exact labelValuesCardinality_countOK lbNames ms idx rf T arrival cctx ctxTop sendErrAt
  · intro lbNames ms vals rf T arrival cctx cnt Hcnt hperm nm hnm v hv
    exact labelValuesCardinality_complete lbNames ms vals rf T arrival cctx cnt Hcnt nm hnm
      v ((hperm nm).mem_iff.mpr hv)

theorem C3_cardinality_correct_witness :
    countOK (fun _ => .ok ⟨2, none⟩) [] "a" "x" 2 ∧
    (∃ ev ∈ (labelValuesCardinality ["a"] [] (fun _ _ => .ok ["x"]) (fun _ => .ok ⟨2, none⟩) 1
        (fun _ vs => vs) (fun _ => none) (fun _ => none) (fun _ => none)).trace,
      ∃ it ∈ ev.batch, it.labelName = "a" ∧ ("x", 2) ∈ it.labelValueSeries) :=
  ⟨C3_cardinality_correct.1 ["a"] [] (fun _ _ => .ok ["x"]) (fun _ => .ok ⟨2, none⟩) 1
      (fun _ vs => vs) (fun _ => none) (fun _ => none) (fun _ => none)
      ⟨.flush, [⟨"a", [("x", 2)]⟩], 1⟩ (by decide) ⟨"a", [("x", 2)]⟩ (by decide)
      ("x", 2) (by decide),
    C3_cardinality_correct.2 ["a"] [] (fun _ => ["x"]) (fun _ => .ok ⟨2, none⟩) 1
      (fun _ vs => vs) (fun _ => none) (fun _ _ => 2) (fun _ _ => rfl)
      (fun _ => List.Perm.refl _) "a" (by decide) "x" (by decide)⟩

theorem responseSize_pos (items : List LVItem) : 0 < responseSize items ↔ items ≠ [] := by
  cases items with
  | nil => simp [responseSize]
  | cons it rest =>
    simp only [responseSize, List.map_cons, List.sum_cons]
    constructor
    · intro _
      simp
    · intro _
      omega

theorem lnvValuesLoop_events (T : Nat) (send : Nat → Option Err) (n : String)
    (values : List String) :
    ∀ (rest : List String) (i a : Nat) (s : NVState),
      ∀ ev ∈ exTraceNV (lnvValuesLoop T send n values rest i a s),
        ev ∈ s.trace ∨ (ev.kind = .valueFlush ∧ ev.nameCtx = n ∧ ev.valuesCtx = values ∧
          T ≤ ev.accAtFlush ∧
          ev.accAfter = (if ev.sliceEnd = values.length then 0 else byteLen n) ∧
          ev.batch ≠ [] ∧ (∀ it ∈ ev.batch, it ∈ s.items ∨ it.labelName = n)) := by
  intro rest
  induction rest with
  | nil =>
    intro i a s ev hev
    exact Or.inl hev
  | cons val rest ih =>
    intro i a s ev hev
    simp only [lnvValuesLoop] at hev
    by_cases hf : T ≤ s.respSize + byteLen val
    · rw [if_pos hf] at hev
      cases hsend : send s.sendCount with
      | some e =>
        rw [hsend] at hev
        exact Or.inl hev
      | none =>
        rw [hsend] at hev
        rcases ih (i + 1) (i + 1) _ ev hev with h1 | h1
        · rcases List.mem_append.mp h1 with h2 | h2
          · exact Or.inl h2
          · rw [List.mem_singleton.mp h2]
            refine Or.inr ⟨rfl, rfl, rfl, hf, rfl, by simp, ?_⟩
            intro it hit
            rcases List.mem_append.mp hit with h3 | h3
            · exact Or.inl h3
            · rw [List.mem_singleton.mp h3]
              exact Or.inr rfl
        · refine Or.inr ⟨h1.1, h1.2.1, h1.2.2.1, h1.2.2.2.1, h1.2.2.2.2.1, h1.2.2.2.2.2.1, ?_⟩
          intro it hit
          rcases h1.2.2.2.2.2.2 it hit with h2 | h2
          · simp at h2
          · exact Or.inr h2
    · rw [if_neg hf] at hev
      by_cases hl : i + 1 = values.length
      · rw [if_pos hl] at hev
        exact Or.inl hev
      · rw [if_neg hl] at hev
        rcases ih (i + 1) a _ ev hev with h1 | h1
        · exact Or.inl h1
        · exact Or.inr h1

theorem lnvValuesLoop_state (T : Nat) (send : Nat → Option Err) (n : String)
    (values : List String) :
    ∀ (rest : List String) (i a : Nat) (s s1 : NVState),
      lnvValuesLoop T send n values rest i a s = .ok s1 →
      s1.ctxChecks = s.ctxChecks ∧
      (∀ it ∈ s1.items, it ∈ s.items ∨ it.labelName = n) ∧
      ((s.items ≠ [] → s.respSize < T) → s1.items ≠ [] → s1.respSize < T) := by
  intro rest
  induction rest with
  | nil =>
    intro i a s s1 h
    cases h
    exact ⟨rfl, fun it hit => Or.inl hit, fun hInv => hInv⟩
  | cons val rest ih =>
    intro i a s s1 h
    simp only [lnvValuesLoop] at h
    by_cases hf : T ≤ s.respSize + byteLen val
    · rw [if_pos hf] at h
      cases hsend : send s.sendCount with
      | some e =>
        rw [hsend] at h
        cases h
      | none =>
        rw [hsend] at h
        obtain ⟨hc, hi, hInv⟩ := ih (i + 1) (i + 1) _ s1 h
        refine ⟨hc, ?_, fun _ => hInv (by intro hne; simp at hne)⟩
        intro it hit
        rcases hi it hit with h1 | h1
        · simp at h1
        · exact Or.inr h1
    · rw [if_neg hf] at h
      by_cases hl : i + 1 = values.length
      · rw [if_pos hl] at h
        cases h
        refine ⟨rfl, ?_, ?_⟩
        · intro it hit
          rcases List.mem_append.mp hit with h1 | h1
          · exact Or.inl h1
          · rw [List.mem_singleton.mp h1]
            exact Or.inr rfl
        · intro _ _
          dsimp only
          omega
      · rw [if_neg hl] at h
        obtain ⟨hc, hi, hInv⟩ := ih (i + 1) a _ s1 h
        exact ⟨hc, hi, fun _ => hInv (fun _ => by dsimp only; omega)⟩

theorem lnvProcessName_events (T : Nat)
    (lvr : String → List Matcher → Except Err (List String)) (ms : List Matcher)
    (ctx send : Nat → Option Err) (nm : String) (s : NVState) :
    ∀ ev ∈ exTraceNV (lnvProcessName T lvr ms ctx send nm s),
      ev ∈ s.trace ∨ (ev.kind ≠ .finalSend ∧ ev.nameCtx = nm ∧ T ≤ ev.accAtFlush ∧
        (ev.kind = .nameFlush → ev.accAfter = byteLen nm ∧ ev.batch = s.items) ∧
        (ev.kind = .valueFlush → ev.batch ≠ [] ∧
          ev.accAfter = (if ev.sliceEnd = ev.valuesCtx.length then 0 else byteLen nm) ∧
          (∀ it ∈ ev.batch, it ∈ s.items ∨ it.labelName = nm))) := by
  intro ev hev
  simp only [lnvProcessName] at hev
  cases hctx : ctx s.ctxChecks with
  | some e =>
    rw [hctx] at hev
    exact Or.inl hev
  | none =>
    rw [hctx] at hev
    dsimp only at hev
    by_cases hfl : T ≤ s.respSize + byteLen nm
    · rw [if_pos hfl] at hev
      cases hsend : send s.sendCount with
      | some e =>
        rw [hsend] at hev
        exact Or.inl hev
      | none =>
        rw [hsend] at hev
        dsimp only at hev
        cases hval : lvr nm ms with
        | error e =>
          rw [hval] at hev
          rcases List.mem_append.mp hev with h1 | h1
          · exact Or.inl h1
          · rw [List.mem_singleton.mp h1]
            exact Or.inr ⟨by simp, rfl, hfl, fun _ => ⟨rfl, rfl⟩, by intro hk; simp at hk⟩
        | ok values =>
          rw [hval] at hev
          rcases lnvValuesLoop_events T send nm values values 0 0 _ ev hev with h1 | h1
          · rcases List.mem_append.mp h1 with h2 | h2
            · exact Or.inl h2
            · rw [List.mem_singleton.mp h2]
              exact Or.inr ⟨by simp, rfl, hfl, fun _ => ⟨rfl, rfl⟩, by intro hk; simp at hk⟩
          · obtain ⟨hk, hn, hvc, hacc, haft, hbne, hprov⟩ := h1
            refine Or.inr ⟨by rw [hk]; simp, hn, hacc, by intro hk2; rw [hk] at hk2; simp at hk2,
              fun _ => ⟨hbne, by rw [hvc]; exact haft, ?_⟩⟩
            intro it hit
            rcases hprov it hit with h2 | h2
            · simp at h2
            · exact Or.inr h2
    · rw [if_neg hfl] at hev
      dsimp only at hev
      cases hval : lvr nm ms with
      | error e =>
        rw [hval] at hev
        exact Or.inl hev
      | ok values =>
        rw [hval] at hev
        rcases lnvValuesLoop_events T send nm values values 0 0 _ ev hev with h1 | h1
        · exact Or.inl h1
        · obtain ⟨hk, hn, hvc, hacc, haft, hbne, hprov⟩ := h1
          exact Or.inr ⟨by rw [hk]; simp, hn, hacc, by intro hk2; rw [hk] at hk2; simp at hk2,
            fun _ => ⟨hbne, by rw [hvc]; exact haft, hprov⟩⟩

theorem lnvProcessName_state (T : Nat)
    (lvr : String → List Matcher → Except Err (List String)) (ms : List Matcher)
    (ctx send : Nat → Option Err) (nm : String) (s s1 : NVState)
    (h : lnvProcessName T lvr ms ctx send nm s = .ok s1) :
    s1.ctxChecks = s.ctxChecks + 1 ∧
    (∀ it ∈ s1.items, it ∈ s.items ∨ it.labelName = nm) ∧
    (s1.items ≠ [] → s1.respSize < T) := by
  simp only [lnvProcessName] at h
  cases hctx : ctx s.ctxChecks with
  | some e =>
    rw [hctx] at h
    cases h
  | none =>
    rw [hctx] at h
    dsimp only at h
    by_cases hfl : T ≤ s.respSize + byteLen nm
    · rw [if_pos hfl] at h
      cases hsend : send s.sendCount with
      | some e =>
        rw [hsend] at h
        cases h
      | none =>
        rw [hsend] at h
        dsimp only at h
        cases hval : lvr nm ms with
        | error e =>
          rw [hval] at h
          cases h
        | ok values =>
          rw [hval] at h
          obtain ⟨hc, hi, hInv⟩ := lnvValuesLoop_state T send nm values values 0 0 _ s1 h
          refine ⟨hc, ?_, hInv (by intro hne; simp at hne)⟩
          intro it hit
          rcases hi it hit with h1 | h1
          · simp at h1
          · exact Or.inr h1
    · rw [if_neg hfl] at h
      dsimp only at h
      cases hval : lvr nm ms with
      | error e =>
        rw [hval] at h
        cases h
      | ok values =>
        rw [hval] at h
        obtain ⟨hc, hi, hInv⟩ := lnvValuesLoop_state T send nm values values 0 0 _ s1 h
        exact ⟨hc, hi, hInv (fun _ => by dsimp only; omega)⟩

theorem lnvNamesLoop_events (T : Nat)
    (lvr : String → List Matcher → Except Err (List String)) (ms : List Matcher)
    (ctx send : Nat → Option Err) :
    ∀ (ns : List String) (s : NVState),
      ∀ ev ∈ exTraceNV (lnvNamesLoop T lvr ms ctx send ns s),
        ev ∈ s.trace ∨ (ev.kind ≠ .finalSend ∧ ev.nameCtx ∈ ns ∧ T ≤ ev.accAtFlush ∧
          (ev.kind = .nameFlush → ev.accAfter = byteLen ev.nameCtx) ∧
          (ev.kind = .valueFlush → ev.batch ≠ [] ∧
            ev.accAfter = (if ev.sliceEnd = ev.valuesCtx.length then 0 else byteLen ev.nameCtx))) := by
  intro ns
  induction ns with
  | nil =>
    intro s ev hev
    exact Or.inl hev
  | cons nm ns ih =>
    intro s ev hev
    simp only [lnvNamesLoop] at hev
    have hgood : ∀ ev2 : NVEvent, ev2 ∈ exTraceNV (lnvProcessName T lvr ms ctx send nm s) →
        ev2 ∈ s.trace ∨ (ev2.kind ≠ .finalSend ∧ ev2.nameCtx ∈ nm :: ns ∧ T ≤ ev2.accAtFlush ∧
          (ev2.kind = .nameFlush → ev2.accAfter = byteLen ev2.nameCtx) ∧
          (ev2.kind = .valueFlush → ev2.batch ≠ [] ∧
            ev2.accAfter = (if ev2.sliceEnd = ev2.valuesCtx.length then 0
              else byteLen ev2.nameCtx))) := by
      intro ev2 hev2
      rcases lnvProcessName_events T lvr ms ctx send nm s ev2 hev2 with h1 | h1
      · exact Or.inl h1
      · obtain ⟨hnf, hn, hacc, hname, hval⟩ := h1
        refine Or.inr ⟨hnf, by rw [hn]; exact List.mem_cons_self nm ns, hacc, ?_, ?_⟩
        · intro hk
          rw [hn]
          exact (hname hk).1
        · intro hk
          obtain ⟨hbne, haft, _⟩ := hval hk
          rw [hn]
          exact ⟨hbne, haft⟩
    cases hp : lnvProcessName T lvr ms ctx send nm s with
    | error r =>
      rw [hp] at hev
      have := hgood ev (by rw [hp]; exact hev)
      exact this
    | ok s2 =>
      rw [hp] at hev
      rcases ih s2 ev hev with h1 | h1
      · exact hgood ev (by rw [hp]; exact h1)
      · obtain ⟨hnf, hn, hacc, hname, hval⟩ := h1
        exact Or.inr ⟨hnf, List.mem_cons_of_mem nm hn, hacc, hname, hval⟩

theorem lnvNamesLoop_state (T : Nat)
    (lvr : String → List Matcher → Except Err (List String)) (ms : List Matcher)
    (ctx send : Nat → Option Err) :
    ∀ (ns : List String) (s s1 : NVState),
      lnvNamesLoop T lvr ms ctx send ns s = .ok s1 →
      (∀ it ∈ s1.items, it ∈ s.items ∨ it.labelName ∈ ns) ∧
      ((s.items ≠ [] → s.respSize < T) → s1.items ≠ [] → s1.respSize < T) ∧
      s1.ctxChecks = s.ctxChecks + ns.length := by
  intro ns
  induction ns with
  | nil =>
    intro s s1 h
    cases h
    exact ⟨fun it hit => Or.inl hit, fun hInv => hInv, rfl⟩
  | cons nm ns ih =>
    intro s s1 h
    simp only [lnvNamesLoop] at h
    cases hp : lnvProcessName T lvr ms ctx send nm s with
    | error r =>
      rw [hp] at h
      cases h
    | ok s2 =>
      rw [hp] at h
      obtain ⟨hc2, hi2, hInv2⟩ := lnvProcessName_state T lvr ms ctx send nm s s2 hp
      obtain ⟨hi1, hInv1, hc1⟩ := ih s2 s1 h
      refine ⟨?_, fun _ => hInv1 hInv2, by rw [hc1, hc2]; simp [List.length_cons]; omega⟩
      intro it hit
      rcases hi1 it hit with h1 | h1
      · rcases hi2 it h1 with h2 | h2
        · exact Or.inl h2
        · exact Or.inr (by rw [h2]; exact List.mem_cons_self nm ns)
      · exact Or.inr (List.mem_cons_of_mem nm h1)

theorem lnvNamesLoop_nameFlush_batch (T : Nat)
    (lvr : String → List Matcher → Except Err (List String)) (ms : List Matcher)
    (ctx send : Nat → Option Err) :
    ∀ (ns : List String) (s : NVState), ns.Nodup →
      (∀ it ∈ s.items, it.labelName ∉ ns) →
      ∀ ev ∈ exTraceNV (lnvNamesLoop T lvr ms ctx send ns s),
        ev ∈ s.trace ∨
          (ev.kind = .nameFlush → ∀ it ∈ ev.batch, it.labelName ≠ ev.nameCtx) := by
  intro ns
  induction ns with
  | nil =>
    intro s _ _ ev hev
    exact Or.inl hev
  | cons nm ns ih =>
    intro s hnodup hitems ev hev
    simp only [lnvNamesLoop] at hev
    have hgood : ∀ ev2 : NVEvent, ev2 ∈ exTraceNV (lnvProcessName T lvr ms ctx send nm s) →
        ev2 ∈ s.trace ∨
          (ev2.kind = .nameFlush → ∀ it ∈ ev2.batch, it.labelName ≠ ev2.nameCtx) := by
      intro ev2 hev2
      rcases lnvProcessName_events T lvr ms ctx send nm s ev2 hev2 with h1 | h1
      · exact Or.inl h1
      · obtain ⟨_, hn, _, hname, _⟩ := h1
        refine Or.inr ?_
        intro hk it hit
        obtain ⟨_, hbatch⟩ := hname hk
        rw [hbatch] at hit
        rw [hn]
        intro hcontra
        exact hitems it hit (hcontra ▸ List.mem_cons_self nm ns)
    cases hp : lnvProcessName T lvr ms ctx send nm s with
    | error r =>
      rw [hp] at hev
      exact hgood ev (by rw [hp]; exact hev)
    | ok s2 =>
      rw [hp] at hev
      obtain ⟨_, hi2, _⟩ := lnvProcessName_state T lvr ms ctx send nm s s2 hp
      have hitems2 : ∀ it ∈ s2.items, it.labelName ∉ ns := by
        intro it hit
        rcases hi2 it hit with h1 | h1
        · intro hmem
          exact hitems it h1 (List.mem_cons_of_mem nm hmem)
        · rw [h1]
          exact (List.nodup_cons.mp hnodup).1
      rcases ih s2 (List.nodup_cons.mp hnodup).2 hitems2 ev hev with h1 | h1
      · exact hgood ev (by rw [hp]; exact h1)
      · exact Or.inr h1

theorem labelNamesAndValues_events (ms : List Matcher)
    (lnr : List Matcher → Except Err (List String))
    (lvr : String → List Matcher → Except Err (List String))
    (T : Nat) (ctx send : Nat → Option Err) :
    ∀ ev ∈ (labelNamesAndValues ms lnr lvr T ctx send).trace,
      ((ev.kind = .nameFlush ∨ ev.kind = .valueFlush) → T ≤ ev.accAtFlush) ∧
      (ev.kind = .finalSend → ev.batch ≠ [] ∧ ev.accAtFlush < T) ∧
      (ev.kind = .valueFlush → ev.batch ≠ [] ∧
        ev.accAfter = (if ev.sliceEnd = ev.valuesCtx.length then 0 else byteLen ev.nameCtx)) ∧
      (ev.kind = .nameFlush → ev.accAfter = byteLen ev.nameCtx) := by
  intro ev hev
  unfold labelNamesAndValues at hev
  cases hn : lnr ms with
  | error e =>
    rw [hn] at hev
    simp at hev
  | ok names =>
    rw [hn] at hev
    dsimp only at hev
    have hloopEv : ∀ ev2 : NVEvent,
        ev2 ∈ exTraceNV (lnvNamesLoop T lvr ms ctx send names ⟨[], 0, [], 0, 0⟩) →
        ((ev2.kind = .nameFlush ∨ ev2.kind = .valueFlush) → T ≤ ev2.accAtFlush) ∧
        (ev2.kind = .finalSend → ev2.batch ≠ [] ∧ ev2.accAtFlush < T) ∧
        (ev2.kind = .valueFlush → ev2.batch ≠ [] ∧
          ev2.accAfter = (if ev2.sliceEnd = ev2.valuesCtx.length then 0
            else byteLen ev2.nameCtx)) ∧
        (ev2.kind = .nameFlush → ev2.accAfter = byteLen ev2.nameCtx) := by
      intro ev2 hev2
      rcases lnvNamesLoop_events T lvr ms ctx send names ⟨[], 0, [], 0, 0⟩ ev2 hev2 with h1 | h1
      · simp at h1
      · obtain ⟨hnf, _, hacc, hname, hval⟩ := h1
        exact ⟨fun _ => hacc, fun hk => absurd hk hnf, hval, hname⟩
    cases hr : lnvNamesLoop T lvr ms ctx send names ⟨[], 0, [], 0, 0⟩ with
    | error r =>
      rw [hr] at hev
      exact hloopEv ev (by rw [hr]; exact hev)
    | ok s =>
      rw [hr] at hev
      dsimp only at hev
      obtain ⟨_, hInv, _⟩ := lnvNamesLoop_state T lvr ms ctx send names ⟨[], 0, [], 0, 0⟩ s hr
      have hInvS : s.items ≠ [] → s.respSize < T := hInv (by intro h; simp at h)
      by_cases hsz : 0 < responseSize s.items
      · rw [if_pos hsz] at hev
        cases hsend : send s.sendCount with
        | some e =>
          rw [hsend] at hev
          exact hloopEv ev (by rw [hr]; exact hev)
        | none =>
          rw [hsend] at hev
          dsimp only at hev
          rcases List.mem_append.mp hev with h1 | h1
          · exact hloopEv ev (by rw [hr]; exact h1)
          · rw [List.mem_singleton.mp h1]
            have hne : s.items ≠ [] := (responseSize_pos s.items).mp hsz
            refine ⟨by intro hk; rcases hk with hk | hk <;> simp at hk,
              fun _ => ⟨hne, hInvS hne⟩,
              by intro hk; simp at hk, by intro hk; simp at hk⟩
      · rw [if_neg hsz] at hev
        exact hloopEv ev (by rw [hr]; exact hev)

/-- C1 counterexample: with threshold 1 and a single name "a" whose value list
is empty, the only batch sent is the empty batch emitted by the name-triggered
flush, so the final sent batch is empty, contradicting the claim that the final
batch is sent only when non-empty. -/
theorem C1_claim_counterexample :
    ¬ C1Claim 1 (labelNamesAndValues [] (fun _ => .ok ["a"]) (fun _ _ => .ok []) 1
      (fun _ => none) (fun _ => none)) := by
  simp only [C1Claim]
  decide

/-- C1 (corrected): every batch sent by a threshold flush (name- or
value-triggered) has accumulator ≥ T at the moment it is flushed (greater-or-
equal comparison), and the final after-loop send only fires when the batch is
non-empty, with accumulator < T; however, a name-triggered flush may emit an
empty batch, which can also be the last batch sent. -/
theorem C1_threshold_trip_amended (ms : List Matcher)
    (lnr : List Matcher → Except Err (List String))
    (lvr : String → List Matcher → Except Err (List String))
    (T : Nat) (ctx send : Nat → Option Err) :
    ∀ ev ∈ (labelNamesAndValues ms lnr lvr T ctx send).trace,
      ((ev.kind = .nameFlush ∨ ev.kind = .valueFlush) → T ≤ ev.accAtFlush) ∧
      (ev.kind = .finalSend → ev.batch ≠ [] ∧ ev.accAtFlush < T) := by
  intro ev hev
  obtain ⟨h1, h2, _, _⟩ := labelNamesAndValues_events ms lnr lvr T ctx send ev hev
  exact ⟨h1, h2⟩

/-- C1 amended witness: a concrete run whose single batch trips the threshold. -/
theorem C1_threshold_trip_amended_witness :
    32 ≤ (NVEvent.mk .valueFlush [⟨"label-aa", ["a0000000", "a1111111", "a2222222"]⟩]
      32 0 "label-aa" ["a0000000", "a1111111", "a2222222"] 3).accAtFlush :=
  ((C1_threshold_trip_amended [] (fun _ => .ok ["label-aa"])
    (fun _ _ => .ok ["a0000000", "a1111111", "a2222222"]) 32 (fun _ => none) (fun _ => none)
    _ (by decide)).1 (Or.inr rfl))

/-- C9 counterexample: with threshold 1, a name "a" of length 1 and one value
"b", the first sent batch is the empty batch emitted by the name-triggered
flush, followed by a non-empty value-triggered batch: an empty batch is sent in
the middle of the stream. -/
theorem C9_claim_counterexample :
    ¬ C9Claim (labelNamesAndValues [] (fun _ => .ok ["a"]) (fun _ _ => .ok ["b"]) 1
      (fun _ => none) (fun _ => none)) := by
  simp only [C9Claim]
  decide

/-- C9 (corrected): a value-triggered flush never sends an empty batch and the
final conditional send only fires when the remaining batch is non-empty (the
serialized size is positive exactly when items remain); only the name-triggered
flush can emit an empty batch, when a label name trips the threshold while
nothing is pending. -/
theorem C9_empty_batches_amended (ms : List Matcher)
    (lnr : List Matcher → Except Err (List String))
    (lvr : String → List Matcher → Except Err (List String))
    (T : Nat) (ctx send : Nat → Option Err) :
    ∀ ev ∈ (labelNamesAndValues ms lnr lvr T ctx send).trace,
      (ev.kind = .valueFlush → ev.batch ≠ []) ∧
      (ev.kind = .finalSend → ev.batch ≠ []) := by
  intro ev hev
  obtain ⟨_, h2, h3, _⟩ := labelNamesAndValues_events ms lnr lvr T ctx send ev hev
  exact ⟨fun hk => (h3 hk).1, fun hk => (h2 hk).1⟩

/-- C9 amended witness: in a concrete run, both a value-triggered batch and the
final batch are non-empty. -/
theorem C9_empty_batches_amended_witness :
    (NVEvent.mk .valueFlush [⟨"aa", ["bb"]⟩] 4 0 "aa" ["bb"] 1).batch ≠ [] :=
  ((C9_empty_batches_amended [] (fun _ => .ok ["aa"]) (fun _ _ => .ok ["bb"]) 3
    (fun _ => none) (fun _ => none) _ (by decide)).1 rfl)

/-- C6 (confirmed): whenever a value-triggered flush fires at value index i of
a label name's value list, the accumulator is reset to 0 if i is the last index
of the list, and to the byte length of the label name otherwise. -/
theorem C6_value_flush_reset (ms : List Matcher)
    (lnr : List Matcher → Except Err (List String))
    (lvr : String → List Matcher → Except Err (List String))
    (T : Nat) (ctx send : Nat → Option Err) :
    ∀ ev ∈ (labelNamesAndValues ms lnr lvr T ctx send).trace,
      ev.kind = .valueFlush →
        ev.accAfter = (if ev.sliceEnd = ev.valuesCtx.length then 0 else byteLen ev.nameCtx) := by
  intro ev hev hk
  obtain ⟨_, _, h3, _⟩ := labelNamesAndValues_events ms lnr lvr T ctx send ev hev
  exact (h3 hk).2

/-- C6 witness: a mid-list flush resets the accumulator to the label name's
byte length, a last-value flush to 0. -/
theorem C6_value_flush_reset_witness :
    (NVEvent.mk .valueFlush [⟨"aa", ["bb"]⟩] 4 2 "aa" ["bb", "cc"] 1).accAfter =
      (if 1 = 2 then 0 else byteLen "aa") :=
  C6_value_flush_reset [] (fun _ => .ok ["aa"]) (fun _ _ => .ok ["bb", "cc"]) 3
    (fun _ => none) (fun _ => none) _ (by decide) rfl

theorem labelNamesAndValues_nameFlush_batch (ms : List Matcher) (names : List String)
    (lvr : String → List Matcher → Except Err (List String)) (T : Nat)
    (ctx send : Nat → Option Err) (hnodup : names.Nodup) :
    ∀ ev ∈ (labelNamesAndValues ms (fun _ => .ok names) lvr T ctx send).trace,
      ev.kind = .nameFlush → ∀ it ∈ ev.batch, it.labelName ≠ ev.nameCtx := by
  intro ev hev hk
  unfold labelNamesAndValues at hev
  dsimp only at hev
  have hbatch : ∀ ev2 : NVEvent,
      ev2 ∈ exTraceNV (lnvNamesLoop T lvr ms ctx send names ⟨[], 0, [], 0, 0⟩) →
      ev2.kind = .nameFlush → ∀ it ∈ ev2.batch, it.labelName ≠ ev2.nameCtx := by
    intro ev2 hev2 hk2
    rcases lnvNamesLoop_nameFlush_batch T lvr ms ctx send names ⟨[], 0, [], 0, 0⟩ hnodup
        (by intro it h; simp at h) ev2 hev2 with h1 | h1
    · simp at h1
    · exact h1 hk2
  cases hr : lnvNamesLoop T lvr ms ctx send names ⟨[], 0, [], 0, 0⟩ with
  | error r =>
    rw [hr] at hev
    exact hbatch ev (by rw [hr]; exact hev) hk
  | ok s =>
    rw [hr] at hev
    dsimp only at hev
    by_cases hsz : 0 < responseSize s.items
    · rw [if_pos hsz] at hev
      cases hsend : send s.sendCount with
      | some e =>
        rw [hsend] at hev
        exact hbatch ev (by rw [hr]; exact hev) hk
      | none =>
        rw [hsend] at hev
        dsimp only at hev
        rcases List.mem_append.mp hev with h1 | h1
        · exact hbatch ev (by rw [hr]; exact h1) hk
        · rw [List.mem_singleton.mp h1] at hk
          simp at hk
    · rw [if_neg hsz] at hev
      exact hbatch ev (by rw [hr]; exact hev) hk

/-- C5 (confirmed): when processing a label name, after the name's byte length
is added to the accumulator and before its values are fetched, if the
accumulator has reached the threshold then the pending batch — which contains
no entry for the new name — is sent, the item list is cleared and the
accumulator is reset to the byte length of the name just started. -/
theorem C5_name_triggered_flush :
    (∀ (ms : List Matcher) (names : List String)
      (lvr : String → List Matcher → Except Err (List String)) (T : Nat)
      (ctx send : Nat → Option Err), names.Nodup →
      ∀ ev ∈ (labelNamesAndValues ms (fun _ => .ok names) lvr T ctx send).trace,
        ev.kind = .nameFlush →
          T ≤ ev.accAtFlush ∧ ev.accAfter = byteLen ev.nameCtx ∧
          ∀ it ∈ ev.batch, it.labelName ≠ ev.nameCtx) ∧
    (∀ (T : Nat) (lvr : String → List Matcher → Except Err (List String))
      (ms : List Matcher) (nm : String) (vs : List String) (s : NVState),
      T ≤ s.respSize + byteLen nm → lvr nm ms = .ok vs →
      lnvProcessName T lvr ms (fun _ => none) (fun _ => none) nm s =
        lnvValuesLoop T (fun _ => none) nm vs vs 0 0
          ⟨[], byteLen nm,
            s.trace ++ [⟨.nameFlush, s.items, s.respSize + byteLen nm, byteLen nm, nm, [], 0⟩],
            s.sendCount + 1, s.ctxChecks + 1⟩) := by
  constructor
  · intro ms names lvr T ctx send hnodup ev hev hk
    obtain ⟨h1, _, _, h4⟩ :=
      labelNamesAndValues_events ms (fun _ => .ok names) lvr T ctx send ev hev
    exact ⟨h1 (Or.inl hk), h4 hk,
      labelNamesAndValues_nameFlush_batch ms names lvr T ctx send hnodup ev hev hk⟩
  · intro T lvr ms nm vs s hth hval
    unfold lnvProcessName
    dsimp only
    rw [if_pos hth]
    dsimp only
    rw [hval]

/-- C5 witness: a concrete name-triggered flush with the accumulator at the
threshold, and the concrete step equation for it. -/
theorem C5_name_triggered_flush_witness :
    (3 ≤ 4 ∧ (4 : Nat) = byteLen "aaaa" ∧
      ∀ it ∈ ([] : List LVItem), it.labelName ≠ "aaaa") ∧
    lnvProcessName 4 (fun _ _ => .ok ["w"]) [] (fun _ => none) (fun _ => none) "zz"
        ⟨[⟨"x", ["y"]⟩], 2, [], 0, 0⟩ =
      lnvValuesLoop 4 (fun _ => none) "zz" ["w"] ["w"] 0 0
        ⟨[], byteLen "zz", [] ++ [⟨.nameFlush, [⟨"x", ["y"]⟩], 2 + byteLen "zz",
          byteLen "zz", "zz", [], 0⟩], 0 + 1, 0 + 1⟩ := by
  constructor
  · have := C5_name_triggered_flush.1 [] ["aaaa"] (fun _ _ => .ok []) 3
      (fun _ => none) (fun _ => none) (by decide)
      ⟨.nameFlush, [], 4, 4, "aaaa", [], 0⟩ (by decide) rfl
    exact ⟨this.1, this.2.1, this.2.2⟩
  · exact C5_name_triggered_flush.2 4 (fun _ _ => .ok ["w"]) [] "zz" ["w"]
      ⟨[⟨"x", ["y"]⟩], 2, [], 0, 0⟩ (by decide) rfl

theorem lnvProcessName_no_entry (T : Nat)
    (lvr : String → List Matcher → Except Err (List String)) (ms : List Matcher)
    (ctx send : Nat → Option Err) (n : String) (hn : lvr n ms = .ok [])
    (nm : String) (s : NVState) (hitems : ∀ it ∈ s.items, it.labelName ≠ n)
    (htrace : ∀ ev ∈ s.trace, ∀ it ∈ ev.batch, it.labelName ≠ n) :
    match lnvProcessName T lvr ms ctx send nm s with
    | .error r => ∀ ev ∈ r.trace, ∀ it ∈ ev.batch, it.labelName ≠ n
    | .ok s1 => (∀ it ∈ s1.items, it.labelName ≠ n) ∧
        (∀ ev ∈ s1.trace, ∀ it ∈ ev.batch, it.labelName ≠ n) := by
  have hev := lnvProcessName_events T lvr ms ctx send nm s
  by_cases hnm : nm = n
  · subst hnm
    unfold lnvProcessName
    cases hctx : ctx s.ctxChecks with
    | some e => exact htrace
    | none =>
      dsimp only
      by_cases hfl : T ≤ s.respSize + byteLen nm
      · rw [if_pos hfl]
        cases hsend : send s.sendCount with
        | some e => exact htrace
        | none =>
          dsimp only
          rw [hn]
          refine ⟨by intro it h; simp at h, ?_⟩
          intro ev hev2
          rcases List.mem_append.mp hev2 with h1 | h1
          · exact htrace ev h1
          · rw [List.mem_singleton.mp h1]
            exact hitems
      · rw [if_neg hfl]
        dsimp only
        rw [hn]
        exact ⟨hitems, htrace⟩
  · have hAll : ∀ ev ∈ exTraceNV (lnvProcessName T lvr ms ctx send nm s),
        ∀ it ∈ ev.batch, it.labelName ≠ n := by
      intro ev hev2 it hit
      rcases hev ev hev2 with h1 | h1
      · exact htrace ev h1 it hit
      · obtain ⟨hnf, _, _, hname, hval⟩ := h1
        cases hk : ev.kind with
        | nameFlush =>
          rw [(hname hk).2] at hit
          exact hitems it hit
        | valueFlush =>
          rcases (hval hk).2.2 it hit with h2 | h2
          · exact hitems it h2
          · rw [h2]
            exact hnm
        | finalSend => exact absurd hk hnf
    cases hp : lnvProcessName T lvr ms ctx send nm s with
    | error r => exact fun ev hev2 => hAll ev (by rw [hp]; exact hev2)
    | ok s1 =>
      obtain ⟨_, hi, _⟩ := lnvProcessName_state T lvr ms ctx send nm s s1 hp
      refine ⟨?_, fun ev hev2 => hAll ev (by rw [hp]; exact hev2)⟩
      intro it hit
      rcases hi it hit with h1 | h1
      · exact hitems it h1
      · rw [h1]
        exact hnm

theorem lnvNamesLoop_no_entry (T : Nat)
    (lvr : String → List Matcher → Except Err (List String)) (ms : List Matcher)
    (ctx send : Nat → Option Err) (n : String) (hn : lvr n ms = .ok []) :
    ∀ (ns : List String) (s : NVState),
      (∀ it ∈ s.items, it.labelName ≠ n) →
      (∀ ev ∈ s.trace, ∀ it ∈ ev.batch, it.labelName ≠ n) →
      match lnvNamesLoop T lvr ms ctx send ns s with
      | .error r => ∀ ev ∈ r.trace, ∀ it ∈ ev.batch, it.labelName ≠ n
      | .ok s1 => (∀ it ∈ s1.items, it.labelName ≠ n) ∧
          (∀ ev ∈ s1.trace, ∀ it ∈ ev.batch, it.labelName ≠ n) := by
  intro ns
  induction ns with
  | nil =>
    intro s hitems htrace
    exact ⟨hitems, htrace⟩
  | cons nm ns ih =>
    intro s hitems htrace
    simp only [lnvNamesLoop]
    have hstep := lnvProcessName_no_entry T lvr ms ctx send n hn nm s hitems htrace
    cases hp : lnvProcessName T lvr ms ctx send nm s with
    | error r =>
      rw [hp] at hstep
      exact hstep
    | ok s2 =>
      rw [hp] at hstep
      exact ih s2 hstep.1 hstep.2

/-- C10 (confirmed): a label name whose value list is empty never contributes
an entry to any sent batch, yet its byte length is still added to the
accumulator, so it alone can trigger a flush of the pending content; when it
does, the pending batch is sent and the accumulator becomes the name's byte
length, otherwise the accumulator simply grows by the name's byte length. -/
theorem C10_empty_values_name :
    (∀ (ms : List Matcher) (lnr : List Matcher → Except Err (List String))
      (lvr : String → List Matcher → Except Err (List String)) (T : Nat)
      (ctx send : Nat → Option Err) (n : String), lvr n ms = .ok [] →
      ∀ ev ∈ (labelNamesAndValues ms lnr lvr T ctx send).trace,
        ∀ it ∈ ev.batch, it.labelName ≠ n) ∧
    (∀ (T : Nat) (lvr : String → List Matcher → Except Err (List String))
      (ms : List Matcher) (n : String) (s : NVState), lvr n ms = .ok [] →
      lnvProcessName T lvr ms (fun _ => none) (fun _ => none) n s =
        if T ≤ s.respSize + byteLen n then
          .ok ⟨[], byteLen n,
            s.trace ++ [⟨.nameFlush, s.items, s.respSize + byteLen n, byteLen n, n, [], 0⟩],
            s.sendCount + 1, s.ctxChecks + 1⟩
        else
          .ok ⟨s.items, s.respSize + byteLen n, s.trace, s.sendCount, s.ctxChecks + 1⟩) := by
  constructor
  · intro ms lnr lvr T ctx send n hn ev hev it hit
    unfold labelNamesAndValues at hev
    cases hlnr : lnr ms with
    | error e =>
      rw [hlnr] at hev
      simp at hev
    | ok names =>
      rw [hlnr] at hev
      dsimp only at hev
      have hloop := lnvNamesLoop_no_entry T lvr ms ctx send n hn names ⟨[], 0, [], 0, 0⟩
        (by intro it2 h; simp at h) (by intro ev2 h; simp at h)
      cases hr : lnvNamesLoop T lvr ms ctx send names ⟨[], 0, [], 0, 0⟩ with
      | error r =>
        rw [hr] at hev
        rw [hr] at hloop
        exact hloop ev hev it hit
      | ok s =>
        rw [hr] at hev
        rw [hr] at hloop
        dsimp only at hev
        by_cases hsz : 0 < responseSize s.items
        · rw [if_pos hsz] at hev
          cases hsend : send s.sendCount with
          | some e =>
            rw [hsend] at hev
            exact hloop.2 ev hev it hit
          | none =>
            rw [hsend] at hev
            dsimp only at hev
            rcases List.mem_append.mp hev with h1 | h1
            · exact hloop.2 ev h1 it hit
            · rw [List.mem_singleton.mp h1] at hit
              exact hloop.1 it hit
        · rw [if_neg hsz] at hev
          exact hloop.2 ev hev it hit
  · intro T lvr ms n s hn
    unfold lnvProcessName
    dsimp only
    by_cases hfl : T ≤ s.respSize + byteLen n
    · rw [if_pos hfl]
      dsimp only
      rw [hn]
      rfl
    · rw [if_neg hfl]
      dsimp only
      rw [hn]
      rfl

/-- C10 witness: with threshold 2, the 5-byte name "aaaaa" with no values
flushes the pending one-item batch by itself, and its entry never appears. -/
theorem C10_empty_values_name_witness :
    (∀ ev ∈ (labelNamesAndValues [] (fun _ => .ok ["b", "aaaaa"])
        (fun nm _ => .ok (if nm = "b" then ["c"] else [])) 2
        (fun _ => none) (fun _ => none)).trace,
      ∀ it ∈ ev.batch, it.labelName ≠ "aaaaa") ∧
    lnvProcessName 2 (fun nm _ => .ok (if nm = "b" then ["c"] else [])) []
        (fun _ => none) (fun _ => none) "aaaaa"
        ⟨[⟨"b", ["c"]⟩], 1, [], 0, 0⟩ =
      .ok ⟨[], byteLen "aaaaa",
        [] ++ [⟨.nameFlush, [⟨"b", ["c"]⟩], 1 + byteLen "aaaaa", byteLen "aaaaa",
          "aaaaa", [], 0⟩], 0 + 1, 0 + 1⟩ := by
  constructor
  · exact C10_empty_values_name.1 [] (fun _ => .ok ["b", "aaaaa"])
      (fun nm _ => .ok (if nm = "b" then ["c"] else [])) 2
      (fun _ => none) (fun _ => none) "aaaaa" rfl
  · have := C10_empty_values_name.2 2 (fun nm _ => .ok (if nm = "b" then ["c"] else []))
      [] "aaaaa" ⟨[⟨"b", ["c"]⟩], 1, [], 0, 0⟩ rfl
    rw [this]
    rfl

theorem itemsVals_nil (n : String) : itemsVals n [] = [] := rfl

theorem itemsVals_append (n : String) (a b : List LVItem) :
    itemsVals n (a ++ b) = itemsVals n a ++ itemsVals n b := by
  simp [itemsVals, List.filter_append]

theorem itemsVals_single_ne {m n : String} (h : m ≠ n) (vs : List String) :
    itemsVals n [⟨m, vs⟩] = [] := by
  have hb : (m == n) = false := by simpa using h
  simp [itemsVals, List.filter, hb]

theorem itemsVals_single_eq (n : String) (vs : List String) :
    itemsVals n [⟨n, vs⟩] = vs := by
  simp [itemsVals, List.filter]

theorem nvTotal_push_event (n : String) (tr : List NVEvent) (ev : NVEvent)
    (items : List LVItem) :
    nvTotal n (tr ++ [ev]) items =
      collectValues n (tr.map (fun e => e.batch)) ++ itemsVals n ev.batch ++
        itemsVals n items := by
  simp [nvTotal, collectValues, itemsVals, List.filter_append]

theorem nvTotal_def (n : String) (tr : List NVEvent) (items : List LVItem) :
    nvTotal n tr items = collectValues n (tr.map (fun e => e.batch)) ++ itemsVals n items :=
  rfl

theorem lnvValuesLoop_total_other (T : Nat) (send : Nat → Option Err) (m : String)
    (values : List String) (n : String) (hmn : m ≠ n) :
    ∀ (rest : List String) (i a : Nat) (s s1 : NVState),
      lnvValuesLoop T send m values rest i a s = .ok s1 →
      nvTotal n s1.trace s1.items = nvTotal n s.trace s.items := by
  intro rest
  induction rest with
  | nil =>
    intro i a s s1 h
    cases h
    rfl
  | cons val rest ih =>
    intro i a s s1 h
    simp only [lnvValuesLoop] at h
    by_cases hf : T ≤ s.respSize + byteLen val
    · rw [if_pos hf] at h
      cases hsend : send s.sendCount with
      | some e =>
        rw [hsend] at h
        cases h
      | none =>
        rw [hsend] at h
        rw [ih (i + 1) (i + 1) _ s1 h]
        rw [nvTotal_push_event, nvTotal_def, itemsVals_append, itemsVals_single_ne hmn,
          itemsVals_nil]
        simp
    · rw [if_neg hf] at h
      by_cases hl : i + 1 = values.length
      · rw [if_pos hl] at h
        cases h
        rw [nvTotal_def, nvTotal_def, itemsVals_append, itemsVals_single_ne hmn]
        simp
      · rw [if_neg hl] at h
        exact ih (i + 1) a
          ⟨s.items, s.respSize + byteLen val, s.trace, s.sendCount, s.ctxChecks⟩ s1 h

theorem lnvValuesLoop_total_self (T : Nat) (send : Nat → Option Err)
    (n : String) (values : List String) :
    ∀ (rest : List String) (i a : Nat) (s s1 : NVState),
      rest = values.drop i → a ≤ i + 1 → (rest = [] → values.drop a = []) →
      lnvValuesLoop T send n values rest i a s = .ok s1 →
      nvTotal n s1.trace s1.items = nvTotal n s.trace s.items ++ values.drop a := by
  intro rest
  induction rest with
  | nil =>
    intro i a s s1 _ _ hnil h
    cases h
    rw [hnil rfl]
    simp
  | cons val rest ih =>
    intro i a s s1 hdrop ha hnil h
    have hlt : i < values.length := by
      by_contra hcon
      rw [List.drop_eq_nil_of_le (by omega)] at hdrop
      cases hdrop
    have hdrop1 : values.drop (i + 1) = rest := by
      have : values.drop (i + 1) = (values.drop i).drop 1 := by
        rw [List.drop_drop]
      rw [this, ← hdrop]
      rfl
    simp only [lnvValuesLoop] at h
    by_cases hf : T ≤ s.respSize + byteLen val
    · rw [if_pos hf] at h
      cases hsend : send s.sendCount with
      | some e =>
        rw [hsend] at h
        cases h
      | none =>
        rw [hsend] at h
        rw [ih (i + 1) (i + 1) _ s1 hdrop1.symm (by omega)
          (fun hr => by rw [hdrop1]; exact hr) h]
        rw [nvTotal_push_event, nvTotal_def]
        have hslice : itemsVals n (s.items ++ [⟨n, (values.drop a).take (i + 1 - a)⟩]) =
            itemsVals n s.items ++ (values.drop a).take (i + 1 - a) := by
          rw [itemsVals_append, itemsVals_single_eq]
        have hjoin : (values.drop a).take (i + 1 - a) ++ values.drop (i + 1) = values.drop a := by
          have h2 : values.drop (i + 1) = (values.drop a).drop (i + 1 - a) := by
            rw [List.drop_drop]
            congr 1
            omega
          rw [h2, List.take_append_drop]
        rw [hslice]
        dsimp only
        rw [itemsVals_nil, List.append_nil]
        conv_rhs => rw [← hjoin]
        simp [List.append_assoc]
    · rw [if_neg hf] at h
      by_cases hl : i + 1 = values.length
      · rw [if_pos hl] at h
        cases h
        rw [nvTotal_def, nvTotal_def]
        have hslice : (values.drop a).take (i + 1 - a) = values.drop a := by
          apply List.take_of_length_le
          rw [List.length_drop]
          omega
        rw [itemsVals_append, itemsVals_single_eq, hslice]
        simp
      · rw [if_neg hl] at h
        exact ih (i + 1) a
          ⟨s.items, s.respSize + byteLen val, s.trace, s.sendCount, s.ctxChecks⟩ s1
          hdrop1.symm (by omega)
          (fun hr => by
            rw [← hdrop1] at hr
            have : values.length ≤ i + 1 := List.drop_eq_nil_iff.mp hr
            omega) h

theorem lnvProcessName_total_other (T : Nat)
    (lvr : String → List Matcher → Except Err (List String)) (ms : List Matcher)
    (ctx send : Nat → Option Err) (nm : String) (n : String) (hmn : nm ≠ n)
    (s s1 : NVState) (h : lnvProcessName T lvr ms ctx send nm s = .ok s1) :
    nvTotal n s1.trace s1.items = nvTotal n s.trace s.items := by
  simp only [lnvProcessName] at h
  cases hctx : ctx s.ctxChecks with
  | some e =>
    rw [hctx] at h
    cases h
  | none =>
    rw [hctx] at h
    dsimp only at h
    by_cases hfl : T ≤ s.respSize + byteLen nm
    · rw [if_pos hfl] at h
      cases hsend : send s.sendCount with
      | some e =>
        rw [hsend] at h
        cases h
      | none =>
        rw [hsend] at h
        dsimp only at h
        cases hval : lvr nm ms with
        | error e =>
          rw [hval] at h
          cases h
        | ok values =>
          rw [hval] at h
          dsimp only at h
          rw [lnvValuesLoop_total_other T send nm values n hmn values 0 0
            ⟨[], byteLen nm, s.trace ++ [⟨.nameFlush, s.items, s.respSize + byteLen nm,
              byteLen nm, nm, [], 0⟩], s.sendCount + 1, s.ctxChecks + 1⟩ s1 h]
          rw [nvTotal_push_event, nvTotal_def, itemsVals_nil, List.append_nil]
    · rw [if_neg hfl] at h
      dsimp only at h
      cases hval : lvr nm ms with
      | error e =>
        rw [hval] at h
        cases h
      | ok values =>
        rw [hval] at h
        dsimp only at h
        exact lnvValuesLoop_total_other T send nm values n hmn values 0 0
          ⟨s.items, s.respSize + byteLen nm, s.trace, s.sendCount, s.ctxChecks + 1⟩ s1 h

theorem lnvProcessName_total_self (T : Nat)
    (lvr : String → List Matcher → Except Err (List String)) (ms : List Matcher)
    (ctx send : Nat → Option Err) (n : String) (vs : List String)
    (hval : lvr n ms = .ok vs)
    (s s1 : NVState) (h : lnvProcessName T lvr ms ctx send n s = .ok s1) :
    nvTotal n s1.trace s1.items = nvTotal n s.trace s.items ++ vs := by
  simp only [lnvProcessName] at h
  cases hctx : ctx s.ctxChecks with
  | some e =>
    rw [hctx] at h
    cases h
  | none =>
    rw [hctx] at h
    dsimp only at h
    by_cases hfl : T ≤ s.respSize + byteLen n
    · rw [if_pos hfl] at h
      cases hsend : send s.sendCount with
      | some e =>
        rw [hsend] at h
        cases h
      | none =>
        rw [hsend] at h
        dsimp only at h
        rw [hval] at h
        dsimp only at h
        have := lnvValuesLoop_total_self T send n vs vs 0 0
          ⟨[], byteLen n, s.trace ++ [⟨.nameFlush, s.items, s.respSize + byteLen n,
            byteLen n, n, [], 0⟩], s.sendCount + 1, s.ctxChecks + 1⟩ s1
          (by rw [List.drop_zero]) (by omega)
          (fun hr => by rw [hr]; rfl) h
        rw [List.drop_zero] at this
        rw [this, nvTotal_push_event, nvTotal_def, itemsVals_nil, List.append_nil]
    · rw [if_neg hfl] at h
      dsimp only at h
      rw [hval] at h
      dsimp only at h
      have := lnvValuesLoop_total_self T send n vs vs 0 0
        ⟨s.items, s.respSize + byteLen n, s.trace, s.sendCount, s.ctxChecks + 1⟩ s1
        (by rw [List.drop_zero]) (by omega)
        (fun hr => by rw [hr]; rfl) h
      rw [List.drop_zero] at this
      rw [this]

theorem lnvValuesLoop_ok (T : Nat) (n : String) (values : List String) :
    ∀ (rest : List String) (i a : Nat) (s : NVState),
      ∃ s1, lnvValuesLoop T (fun _ => none) n values rest i a s = .ok s1 := by
  intro rest
  induction rest with
  | nil =>
    intro i a s
    exact ⟨s, rfl⟩
  | cons val rest ih =>
    intro i a s
    simp only [lnvValuesLoop]
    by_cases hf : T ≤ s.respSize + byteLen val
    · rw [if_pos hf]
      exact ih (i + 1) (i + 1) _
    · rw [if_neg hf]
      by_cases hl : i + 1 = values.length
      · rw [if_pos hl]
        exact ⟨_, rfl⟩
      · rw [if_neg hl]
        exact ih (i + 1) a _

theorem lnvProcessName_ok (T : Nat) (ms : List Matcher) (vals : String → List String)
    (nm : String) (s : NVState) :
    ∃ s1, lnvProcessName T (fun nm2 _ => .ok (vals nm2)) ms (fun _ => none) (fun _ => none)
      nm s = .ok s1 := by
  unfold lnvProcessName
  dsimp only
  by_cases hfl : T ≤ s.respSize + byteLen nm
  · rw [if_pos hfl]
    exact lnvValuesLoop_ok T nm (vals nm) (vals nm) 0 0 _
  · rw [if_neg hfl]
    exact lnvValuesLoop_ok T nm (vals nm) (vals nm) 0 0 _

theorem lnvNamesLoop_ok (T : Nat) (ms : List Matcher) (vals : String → List String) :
    ∀ (ns : List String) (s : NVState),
      ∃ s1, lnvNamesLoop T (fun nm2 _ => .ok (vals nm2)) ms (fun _ => none) (fun _ => none)
        ns s = .ok s1 := by
  intro ns
  induction ns with
  | nil =>
    intro s
    exact ⟨s, rfl⟩
  | cons nm ns ih =>
    intro s
    simp only [lnvNamesLoop]
    obtain ⟨s2, hp⟩ := lnvProcessName_ok T ms vals nm s
    rw [hp]
    exact ih s2

theorem lnvNamesLoop_append (T : Nat)
    (lvr : String → List Matcher → Except Err (List String)) (ms : List Matcher)
    (ctx send : Nat → Option Err) (as bs : List String) :
    ∀ s : NVState,
      lnvNamesLoop T lvr ms ctx send (as ++ bs) s =
        match lnvNamesLoop T lvr ms ctx send as s with
        | .error r => .error r
        | .ok s1 => lnvNamesLoop T lvr ms ctx send bs s1 := by
  induction as with
  | nil =>
    intro s
    rfl
  | cons nm as ih =>
    intro s
    simp only [List.cons_append, lnvNamesLoop]
    cases hp : lnvProcessName T lvr ms ctx send nm s with
    | error r => rfl
    | ok s2 => exact ih s2

theorem lnvNamesLoop_total_other (T : Nat)
    (lvr : String → List Matcher → Except Err (List String)) (ms : List Matcher)
    (ctx send : Nat → Option Err) (n : String) :
    ∀ (ns : List String) (s s1 : NVState), n ∉ ns →
      lnvNamesLoop T lvr ms ctx send ns s = .ok s1 →
      nvTotal n s1.trace s1.items = nvTotal n s.trace s.items := by
  intro ns
  induction ns with
  | nil =>
    intro s s1 _ h
    cases h
    rfl
  | cons nm ns ih =>
    intro s s1 hmem h
    simp only [lnvNamesLoop] at h
    cases hp : lnvProcessName T lvr ms ctx send nm s with
    | error r =>
      rw [hp] at h
      cases h
    | ok s2 =>
      rw [hp] at h
      rw [ih s2 s1 (fun hc => hmem (List.mem_cons_of_mem nm hc)) h]
      exact lnvProcessName_total_other T lvr ms ctx send nm n
        (fun hc => hmem (List.mem_cons.mpr (Or.inl hc.symm))) s s2 hp

/-- C2 (confirmed): for every label name, the concatenation of the value slices
attached to that name's entries across all batches sent by
`labelNamesAndValues` equals exactly the list the index returns for that name,
in the same order; names not in the index contribute nothing. -/
theorem C2_completeness (names : List String) (vals : String → List String)
    (ms : List Matcher) (T : Nat) (hnodup : names.Nodup) :
    ∀ n, collectValues n
        ((labelNamesAndValues ms (fun _ => .ok names) (fun nm _ => .ok (vals nm)) T
          (fun _ => none) (fun _ => none)).trace.map (fun ev => ev.batch)) =
      if n ∈ names then vals n else [] := by
  intro n
  obtain ⟨sF, hrun⟩ := lnvNamesLoop_ok T ms vals names ⟨[], 0, [], 0, 0⟩
  have hres : collectValues n
      ((labelNamesAndValues ms (fun _ => .ok names) (fun nm _ => .ok (vals nm)) T
        (fun _ => none) (fun _ => none)).trace.map (fun ev => ev.batch)) =
      nvTotal n sF.trace sF.items := by
    unfold labelNamesAndValues
    dsimp only
    rw [hrun]
    dsimp only
    by_cases hsz : 0 < responseSize sF.items
    · rw [if_pos hsz]
      dsimp only
      rw [nvTotal_def]
      simp [collectValues, itemsVals, List.filter_append]
    · rw [if_neg hsz]
      dsimp only
      have hitems : sF.items = [] := by
        by_contra hc
        exact hsz ((responseSize_pos sF.items).mpr hc)
      rw [nvTotal_def, hitems, itemsVals_nil, List.append_nil]
  rw [hres]
  by_cases hmem : n ∈ names
  · rw [if_pos hmem]
    obtain ⟨pre, post, hsplit⟩ := List.append_of_mem hmem
    subst hsplit
    obtain ⟨hpre, hnp, hdisj⟩ := List.nodup_append.mp hnodup
    have hnpre : n ∉ pre := fun hc => hdisj hc (List.mem_cons_self n post)
    have hnpost : n ∉ post := (List.nodup_cons.mp hnp).1
    rw [lnvNamesLoop_append T (fun nm _ => .ok (vals nm)) ms (fun _ => none)
      (fun _ => none) pre (n :: post) ⟨[], 0, [], 0, 0⟩] at hrun
    obtain ⟨sA, hA⟩ := lnvNamesLoop_ok T ms vals pre ⟨[], 0, [], 0, 0⟩
    rw [hA] at hrun
    dsimp only at hrun
    simp only [lnvNamesLoop] at hrun
    obtain ⟨sB, hB⟩ := lnvProcessName_ok T ms vals n sA
    rw [hB] at hrun
    have tA : nvTotal n sA.trace sA.items = [] := by
      rw [lnvNamesLoop_total_other T (fun nm _ => .ok (vals nm)) ms (fun _ => none)
        (fun _ => none) n pre ⟨[], 0, [], 0, 0⟩ sA hnpre hA]
      rfl
    have tB : nvTotal n sB.trace sB.items = nvTotal n sA.trace sA.items ++ vals n :=
      lnvProcessName_total_self T (fun nm _ => .ok (vals nm)) ms (fun _ => none)
        (fun _ => none) n (vals n) rfl sA sB hB
    have tF : nvTotal n sF.trace sF.items = nvTotal n sB.trace sB.items :=
      lnvNamesLoop_total_other T (fun nm _ => .ok (vals nm)) ms (fun _ => none)
        (fun _ => none) n post sB sF hnpost hrun
    rw [tF, tB, tA]
    rfl
  · rw [if_neg hmem]
    rw [lnvNamesLoop_total_other T (fun nm _ => .ok (vals nm)) ms (fun _ => none)
      (fun _ => none) n names ⟨[], 0, [], 0, 0⟩ sF hmem hrun]
    rfl

/-- C2 witness: in the concrete two-name run, the values collected for each
name across batches are exactly the index's lists. -/
theorem C2_completeness_witness :
    collectValues "a" ((labelNamesAndValues [] (fun _ => .ok ["a", "b"])
        (fun nm _ => .ok (if nm = "a" then ["u", "v", "w"] else ["x"])) 3
        (fun _ => none) (fun _ => none)).trace.map (fun ev => ev.batch)) =
      if "a" ∈ ["a", "b"] then ["u", "v", "w"] else [] := by
  have := C2_completeness ["a", "b"]
    (fun nm => if nm = "a" then ["u", "v", "w"] else ["x"]) [] 3 (by decide) "a"
  exact this

theorem lnvValuesLoop_sendErr (T : Nat) (send : Nat → Option Err) (n : String)
    (values : List String) (k : Nat) (e : Err)
    (Hlt : ∀ j < k, send j = none) (Hk : send k = some e) :
    ∀ (rest : List String) (i a : Nat) (s : NVState),
      s.sendCount ≤ k → s.trace.length = s.sendCount →
      match lnvValuesLoop T send n values rest i a s with
      | .ok s1 => s1.sendCount ≤ k ∧ s1.trace.length = s1.sendCount
      | .error r => r.err = some e ∧ r.sendAttempts = k + 1 ∧ r.trace.length = k := by
  intro rest
  induction rest with
  | nil =>
    intro i a s hk hl
    exact ⟨hk, hl⟩
  | cons val rest ih =>
    intro i a s hk hl
    simp only [lnvValuesLoop]
    by_cases hf : T ≤ s.respSize + byteLen val
    · rw [if_pos hf]
      rcases Nat.lt_or_ge s.sendCount k with hlt | hge
      · rw [Hlt s.sendCount hlt]
        exact ih (i + 1) (i + 1) _ (by dsimp only; omega) (by dsimp only; simp [hl])
      · have heq : s.sendCount = k := by omega
        rw [heq, Hk]
        exact ⟨rfl, rfl, by dsimp only; omega⟩
    · rw [if_neg hf]
      by_cases hle : i + 1 = values.length
      · rw [if_pos hle]
        exact ⟨hk, hl⟩
      · rw [if_neg hle]
        exact ih (i + 1) a _ hk hl

theorem lnvProcessName_sendErr (T : Nat) (vals : String → List String)
    (ms : List Matcher) (send : Nat → Option Err) (nm : String) (k : Nat) (e : Err)
    (Hlt : ∀ j < k, send j = none) (Hk : send k = some e) :
    ∀ s : NVState, s.sendCount ≤ k → s.trace.length = s.sendCount →
      match lnvProcessName T (fun nm2 _ => .ok (vals nm2)) ms (fun _ => none) send nm s with
      | .ok s1 => s1.sendCount ≤ k ∧ s1.trace.length = s1.sendCount
      | .error r => r.err = some e ∧ r.sendAttempts = k + 1 ∧ r.trace.length = k := by
  intro s hk hl
  unfold lnvProcessName
  dsimp only
  by_cases hfl : T ≤ s.respSize + byteLen nm
  · rw [if_pos hfl]
    rcases Nat.lt_or_ge s.sendCount k with hlt | hge
    · rw [Hlt s.sendCount hlt]
      dsimp only
      exact lnvValuesLoop_sendErr T send nm (vals nm) k e Hlt Hk (vals nm) 0 0 _
        (by dsimp only; omega) (by dsimp only; simp [hl])
    · have heq : s.sendCount = k := by omega
      rw [heq, Hk]
      exact ⟨rfl, rfl, by dsimp only; omega⟩
  · rw [if_neg hfl]
    dsimp only
    exact lnvValuesLoop_sendErr T send nm (vals nm) k e Hlt Hk (vals nm) 0 0 _
      (by dsimp only; omega) (by dsimp only; omega)

theorem lnvNamesLoop_sendErr (T : Nat) (vals : String → List String)
    (ms : List Matcher) (send : Nat → Option Err) (k : Nat) (e : Err)
    (Hlt : ∀ j < k, send j = none) (Hk : send k = some e) :
    ∀ (ns : List String) (s : NVState),
      s.sendCount ≤ k → s.trace.length = s.sendCount →
      match lnvNamesLoop T (fun nm2 _ => .ok (vals nm2)) ms (fun _ => none) send ns s with
      | .ok s1 => s1.sendCount ≤ k ∧ s1.trace.length = s1.sendCount
      | .error r => r.err = some e ∧ r.sendAttempts = k + 1 ∧ r.trace.length = k := by
  intro ns
  induction ns with
  | nil =>
    intro s hk hl
    exact ⟨hk, hl⟩
  | cons nm ns ih =>
    intro s hk hl
    simp only [lnvNamesLoop]
    have hp := lnvProcessName_sendErr T vals ms send nm k e Hlt Hk s hk hl
    cases hpr : lnvProcessName T (fun nm2 _ => .ok (vals nm2)) ms (fun _ => none) send nm s with
    | error r =>
      rw [hpr] at hp
      exact hp
    | ok s2 =>
      rw [hpr] at hp
      exact ih s2 hp.1 hp.2

theorem lnvProcessName_ctxOk (T : Nat) (vals : String → List String)
    (ms : List Matcher) (ctx : Nat → Option Err) (nm : String) (s : NVState)
    (hc : ctx s.ctxChecks = none) :
    ∃ s2, lnvProcessName T (fun nm2 _ => .ok (vals nm2)) ms ctx (fun _ => none) nm s =
        .ok s2 ∧ s2.ctxChecks = s.ctxChecks + 1 := by
  unfold lnvProcessName
  rw [hc]
  dsimp only
  by_cases hfl : T ≤ s.respSize + byteLen nm
  · rw [if_pos hfl]
    obtain ⟨s2, hv⟩ := lnvValuesLoop_ok T nm (vals nm) (vals nm) 0 0
      ⟨[], byteLen nm, s.trace ++ [⟨.nameFlush, s.items, s.respSize + byteLen nm,
        byteLen nm, nm, [], 0⟩], s.sendCount + 1, s.ctxChecks + 1⟩
    refine ⟨s2, hv, ?_⟩
    have := (lnvValuesLoop_state T (fun _ => none) nm (vals nm) (vals nm) 0 0 _ s2 hv).1
    rw [this]
  · rw [if_neg hfl]
    obtain ⟨s2, hv⟩ := lnvValuesLoop_ok T nm (vals nm) (vals nm) 0 0
      ⟨s.items, s.respSize + byteLen nm, s.trace, s.sendCount, s.ctxChecks + 1⟩
    refine ⟨s2, hv, ?_⟩
    have := (lnvValuesLoop_state T (fun _ => none) nm (vals nm) (vals nm) 0 0 _ s2 hv).1
    rw [this]

theorem lnvNamesLoop_ctxOk (T : Nat) (vals : String → List String)
    (ms : List Matcher) (ctx : Nat → Option Err) (m : Nat)
    (Hlt : ∀ j < m, ctx j = none) :
    ∀ (ns : List String) (s : NVState), s.ctxChecks + ns.length ≤ m →
      ∃ s1, lnvNamesLoop T (fun nm2 _ => .ok (vals nm2)) ms ctx (fun _ => none) ns s =
          .ok s1 ∧ s1.ctxChecks = s.ctxChecks + ns.length := by
  intro ns
  induction ns with
  | nil =>
    intro s _
    exact ⟨s, rfl, rfl⟩
  | cons nm ns ih =>
    intro s hle
    simp only [lnvNamesLoop]
    obtain ⟨s2, hp, hc2⟩ := lnvProcessName_ctxOk T vals ms ctx nm s
      (Hlt s.ctxChecks (by simp [List.length_cons] at hle; omega))
    rw [hp]
    obtain ⟨s1, hrun, hc1⟩ := ih s2 (by simp [List.length_cons] at hle ⊢; omega)
    exact ⟨s1, hrun, by rw [hc1, hc2]; simp [List.length_cons]; omega⟩

theorem lnvNamesLoop_ctxErr (T : Nat) (vals : String → List String)
    (ms : List Matcher) (ctx : Nat → Option Err) (m : Nat) (e : Err)
    (Hlt : ∀ j < m, ctx j = none) (Hm : ctx m = some e) :
    ∀ (ns : List String) (s : NVState), s.ctxChecks ≤ m → m < s.ctxChecks + ns.length →
      ∃ r, lnvNamesLoop T (fun nm2 _ => .ok (vals nm2)) ms ctx (fun _ => none) ns s =
          .error r ∧ r.err = some e ∧ r.ctxChecks = m + 1 := by
  intro ns
  induction ns with
  | nil =>
    intro s hle hlt
    simp at hlt
    omega
  | cons nm ns ih =>
    intro s hle hlt
    simp only [lnvNamesLoop]
    rcases Nat.lt_or_ge s.ctxChecks m with hc | hc
    · obtain ⟨s2, hp, hc2⟩ := lnvProcessName_ctxOk T vals ms ctx nm s (Hlt s.ctxChecks hc)
      rw [hp]
      obtain ⟨r, hrun, he, hcr⟩ := ih s2 (by omega)
        (by rw [hc2]; simp [List.length_cons] at hlt; omega)
      exact ⟨r, hrun, he, hcr⟩
    · have heq : s.ctxChecks = m := by omega
      unfold lnvProcessName
      rw [heq, Hm]
      exact ⟨⟨s.trace, some e, s.sendCount, m + 1⟩, rfl, rfl, rfl⟩

theorem lnvProcessName_okOf (T : Nat)
    (lvr : String → List Matcher → Except Err (List String)) (ms : List Matcher)
    (nm : String) (s : NVState) (vsm : List String) (hv : lvr nm ms = .ok vsm) :
    ∃ s2, lnvProcessName T lvr ms (fun _ => none) (fun _ => none) nm s = .ok s2 := by
  unfold lnvProcessName
  dsimp only
  by_cases hfl : T ≤ s.respSize + byteLen nm
  · rw [if_pos hfl]
    dsimp only
    rw [hv]
    exact lnvValuesLoop_ok T nm vsm vsm 0 0 _
  · rw [if_neg hfl]
    dsimp only
    rw [hv]
    exact lnvValuesLoop_ok T nm vsm vsm 0 0 _

theorem lnvNamesLoop_okOf (T : Nat)
    (lvr : String → List Matcher → Except Err (List String)) (ms : List Matcher) :
    ∀ (ns : List String) (s : NVState), (∀ nm ∈ ns, ∃ vs, lvr nm ms = .ok vs) →
      ∃ s1, lnvNamesLoop T lvr ms (fun _ => none) (fun _ => none) ns s = .ok s1 := by
  intro ns
  induction ns with
  | nil =>
    intro s _
    exact ⟨s, rfl⟩
  | cons nm ns ih =>
    intro s hok
    simp only [lnvNamesLoop]
    obtain ⟨vsm, hv⟩ := hok nm (List.mem_cons_self nm ns)
    obtain ⟨s2, hp⟩ := lnvProcessName_okOf T lvr ms nm s vsm hv
    rw [hp]
    exact ih s2 (fun nm2 hm => hok nm2 (List.mem_cons_of_mem nm hm))

/-- C8 (confirmed): an error from the index's LabelNames read is returned
immediately with nothing sent; the first failing Send returns that error with
exactly the previously delivered batches kept and no further send attempts; the
first cancellation-check error is returned with no further checks; a
LabelValues error is returned immediately with no further sends and no final
batch. No error is retried and batches delivered before an error are kept. -/
theorem C8_error_propagation :
    (∀ (ms : List Matcher) (e : Err)
      (lvr : String → List Matcher → Except Err (List String)) (T : Nat)
      (ctx send : Nat → Option Err),
      labelNamesAndValues ms (fun _ => .error e) lvr T ctx send = ⟨[], some e, 0, 0⟩) ∧
    (∀ (ms : List Matcher) (names : List String) (vals : String → List String) (T : Nat)
      (send : Nat → Option Err) (k : Nat) (e : Err),
      (∀ j < k, send j = none) → send k = some e →
      ((labelNamesAndValues ms (fun _ => .ok names) (fun nm _ => .ok (vals nm)) T
          (fun _ => none) send).err = none ∧
        (labelNamesAndValues ms (fun _ => .ok names) (fun nm _ => .ok (vals nm)) T
          (fun _ => none) send).sendAttempts ≤ k) ∨
      ((labelNamesAndValues ms (fun _ => .ok names) (fun nm _ => .ok (vals nm)) T
          (fun _ => none) send).err = some e ∧
        (labelNamesAndValues ms (fun _ => .ok names) (fun nm _ => .ok (vals nm)) T
          (fun _ => none) send).sendAttempts = k + 1 ∧
        (labelNamesAndValues ms (fun _ => .ok names) (fun nm _ => .ok (vals nm)) T
          (fun _ => none) send).trace.length = k)) ∧
    (∀ (ms : List Matcher) (names : List String) (vals : String → List String) (T : Nat)
      (ctx : Nat → Option Err) (m : Nat) (e : Err),
      (∀ j < m, ctx j = none) → ctx m = some e →
      (m < names.length →
        (labelNamesAndValues ms (fun _ => .ok names) (fun nm _ => .ok (vals nm)) T
          ctx (fun _ => none)).err = some e ∧
        (labelNamesAndValues ms (fun _ => .ok names) (fun nm _ => .ok (vals nm)) T
          ctx (fun _ => none)).ctxChecks = m + 1) ∧
      (names.length ≤ m →
        (labelNamesAndValues ms (fun _ => .ok names) (fun nm _ => .ok (vals nm)) T
          ctx (fun _ => none)).err = none ∧
        (labelNamesAndValues ms (fun _ => .ok names) (fun nm _ => .ok (vals nm)) T
          ctx (fun _ => none)).ctxChecks = names.length)) ∧
    (∀ (ms : List Matcher) (pre : List String) (n0 : String) (post : List String)
      (vals : String → List String) (T : Nat) (e : Err), n0 ∉ pre →
      (labelNamesAndValues ms (fun _ => .ok (pre ++ n0 :: post))
        (fun nm _ => if nm = n0 then .error e else .ok (vals nm)) T
        (fun _ => none) (fun _ => none)).err = some e ∧
      ∀ ev ∈ (labelNamesAndValues ms (fun _ => .ok (pre ++ n0 :: post))
          (fun nm _ => if nm = n0 then .error e else .ok (vals nm)) T
          (fun _ => none) (fun _ => none)).trace,
        ev.kind ≠ .finalSend ∧ ev.nameCtx ∈ pre ++ [n0]) := by
  refine ⟨fun ms e lvr T ctx send => rfl, ?_, ?_, ?_⟩
  · intro ms names vals T send k e Hlt Hk
    unfold labelNamesAndValues
    dsimp only
    have h := lnvNamesLoop_sendErr T vals ms send k e Hlt Hk names ⟨[], 0, [], 0, 0⟩
      (by dsimp only; omega) rfl
    cases hr : lnvNamesLoop T (fun nm2 _ => .ok (vals nm2)) ms (fun _ => none) send names
        ⟨[], 0, [], 0, 0⟩ with
    | error r =>
      rw [hr] at h
      exact Or.inr h
    | ok s =>
      rw [hr] at h
      obtain ⟨hk, hl⟩ := h
      dsimp only
      by_cases hsz : 0 < responseSize s.items
      · rw [if_pos hsz]
        rcases Nat.lt_or_ge s.sendCount k with hlt | hge
        · rw [Hlt s.sendCount hlt]
          exact Or.inl ⟨rfl, by dsimp only; omega⟩
        · have heq : s.sendCount = k := by omega
          rw [heq, Hk]
          exact Or.inr ⟨rfl, rfl, by dsimp only; omega⟩
      · rw [if_neg hsz]
        exact Or.inl ⟨rfl, hk⟩
  · intro ms names vals T ctx m e Hlt Hm
    unfold labelNamesAndValues
    dsimp only
    constructor
    · intro hm
      obtain ⟨r, hrun, he, hc⟩ := lnvNamesLoop_ctxErr T vals ms ctx m e Hlt Hm names
        ⟨[], 0, [], 0, 0⟩ (by dsimp only; omega) (by dsimp only; omega)
      rw [hrun]
      exact ⟨he, hc⟩
    · intro hm
      obtain ⟨s1, hrun, hc⟩ := lnvNamesLoop_ctxOk T vals ms ctx m Hlt names
        ⟨[], 0, [], 0, 0⟩ (by dsimp only; omega)
      rw [hrun]
      dsimp only
      by_cases hsz : 0 < responseSize s1.items
      · rw [if_pos hsz]
        exact ⟨rfl, by rw [hc]; dsimp only; omega⟩
      · rw [if_neg hsz]
        exact ⟨rfl, by rw [hc]; dsimp only; omega⟩
  · intro ms pre n0 post vals T e hn0
    unfold labelNamesAndValues
    dsimp only
    rw [lnvNamesLoop_append T (fun nm _ => if nm = n0 then .error e else .ok (vals nm)) ms
      (fun _ => none) (fun _ => none) pre (n0 :: post) ⟨[], 0, [], 0, 0⟩]
    obtain ⟨sA, hA⟩ := lnvNamesLoop_okOf T
      (fun nm _ => if nm = n0 then .error e else .ok (vals nm)) ms pre ⟨[], 0, [], 0, 0⟩
      (fun nm hm => ⟨vals nm, by
        dsimp only
        rw [if_neg (fun hc : nm = n0 => hn0 (hc ▸ hm))]⟩)
    rw [hA]
    dsimp only
    simp only [lnvNamesLoop]
    have hpreEv : ∀ ev ∈ sA.trace, ev.kind ≠ .finalSend ∧ ev.nameCtx ∈ pre ++ [n0] := by
      intro ev hev
      rcases lnvNamesLoop_events T (fun nm _ => if nm = n0 then .error e else .ok (vals nm))
          ms (fun _ => none) (fun _ => none) pre ⟨[], 0, [], 0, 0⟩ ev
          (by rw [hA]; exact hev) with h1 | h1
      · simp at h1
      · exact ⟨h1.1, List.mem_append.mpr (Or.inl h1.2.1)⟩
    unfold lnvProcessName
    dsimp only
    by_cases hfl : T ≤ sA.respSize + byteLen n0
    · rw [if_pos hfl]
      dsimp only
      rw [if_pos rfl]
      refine ⟨rfl, ?_⟩
      intro ev hev
      rcases List.mem_append.mp hev with h1 | h1
      · exact hpreEv ev h1
      · rw [List.mem_singleton.mp h1]
        exact ⟨by simp, List.mem_append.mpr (Or.inr (List.mem_singleton.mpr rfl))⟩
    · rw [if_neg hfl]
      dsimp only
      rw [if_pos rfl]
      exact ⟨rfl, hpreEv⟩

/-- C8 witness: each propagation mode exercised on a concrete run. -/
theorem C8_error_propagation_witness :
    (labelNamesAndValues [] (fun _ => .error "boom") (fun _ _ => .ok []) 5
      (fun _ => none) (fun _ => none) = ⟨[], some "boom", 0, 0⟩) ∧
    (((labelNamesAndValues [] (fun _ => .ok ["a"]) (fun _ _ => .ok ["b"]) 1
        (fun _ => none) (fun j => if j = 0 then some "s" else none)).err = none ∧
      (labelNamesAndValues [] (fun _ => .ok ["a"]) (fun _ _ => .ok ["b"]) 1
        (fun _ => none) (fun j => if j = 0 then some "s" else none)).sendAttempts ≤ 0) ∨
    ((labelNamesAndValues [] (fun _ => .ok ["a"]) (fun _ _ => .ok ["b"]) 1
        (fun _ => none) (fun j => if j = 0 then some "s" else none)).err = some "s" ∧
      (labelNamesAndValues [] (fun _ => .ok ["a"]) (fun _ _ => .ok ["b"]) 1
        (fun _ => none) (fun j => if j = 0 then some "s" else none)).sendAttempts = 0 + 1 ∧
      (labelNamesAndValues [] (fun _ => .ok ["a"]) (fun _ _ => .ok ["b"]) 1
        (fun _ => none) (fun j => if j = 0 then some "s" else none)).trace.length = 0)) ∧
    (0 < (["a"] : List String).length →
      (labelNamesAndValues [] (fun _ => .ok ["a"]) (fun _ _ => .ok ["b"]) 1
        (fun j => if j = 0 then some "c" else none) (fun _ => none)).err = some "c" ∧
      (labelNamesAndValues [] (fun _ => .ok ["a"]) (fun _ _ => .ok ["b"]) 1
        (fun j => if j = 0 then some "c" else none) (fun _ => none)).ctxChecks = 0 + 1) ∧
    ((labelNamesAndValues [] (fun _ => .ok ([] ++ "a" :: []))
        (fun nm _ => if nm = "a" then .error "v" else .ok ["b"]) 7
        (fun _ => none) (fun _ => none)).err = some "v") := by
  refine ⟨C8_error_propagation.1 [] "boom" (fun _ _ => .ok []) 5 (fun _ => none)
      (fun _ => none),
    C8_error_propagation.2.1 [] ["a"] (fun _ => ["b"]) 1
      (fun j => if j = 0 then some "s" else none) 0 "s"
      (fun j hj => absurd hj (Nat.not_lt_zero j)) rfl, ?_, ?_⟩
  · intro _
    exact (C8_error_propagation.2.2.1 [] ["a"] (fun _ => ["b"]) 1
      (fun j => if j = 0 then some "c" else none) 0 "c"
      (fun j hj => absurd hj (Nat.not_lt_zero j)) rfl).1 (by decide)
  · exact (C8_error_propagation.2.2.2 [] [] "a" [] (fun _ => ["b"]) 7 "v"
      (by simp)).1

end Mimir